import Mathlib

/-!
# Verification of the custom CSP timetabling engine (`src/csp.py`)

Shallow embedding of the constraint-satisfaction core of the
university-timetable-generator repository: the consistency predicate
`is_consistent`, domain revision `revise`, arc consistency `ac3`, the
MRV-ordered backtracking search `solve_backtracking`, and the relevant
slice of the formulator `setup_csp`.

Conventions of the embedding:
* Python strings are Lean `String`s; the character-level helpers below
  (`splitOnChar`, `containsL`, ...) mirror Python's `str.split`,
  `in`-substring test, `str.strip` and `str.lower` by structural
  recursion so that every definition evaluates by `decide` / `rfl`.
* Python dicts (`domains`, `schedule`, `empty_domain_reasons`) are
  association lists in insertion order.  `dinsert` is dict assignment
  (`d[k] = v`: update in place if the key exists, else append);
  `dset` is the same but drops the write when the key is absent - it is
  used for `revise`, where Python reads `domains[v1]` first and would
  raise `KeyError` on an absent key, so the absent case is unreachable
  in the program and the embedding makes it a no-op; `derase` is
  `del d[k]`; `dlookup`/`getDom` are `d[k]` / `d.get(k, [])`.
* The backtracking recursion is embedded with a fuel parameter so that
  it is structurally recursive (hence executable by `decide`); the
  wrapper `solve_backtracking` supplies `variables.length + 1` fuel,
  which is shown ample by `solve_bt_fuel_stable`.  The search threads
  the mutable `schedule` dict explicitly: it returns the Python return
  value together with the final state of the dict.
-/

/-- Python `ch == c` test used by the char-level string helpers. -/
def charEq (a b : Char) : Bool := decide (a = b)

/-- `startsWithL p s` : the char list `p` is an initial segment of `s`
(mirrors Python's implicit substring matching). -/
def startsWithL : List Char → List Char → Bool
  | [], _ => true
  | _ :: _, [] => false
  | p :: ps, x :: xs => charEq p x && startsWithL ps xs

/-- `containsL s pat` : Python's `pat in s` substring test on char lists. -/
def containsL : List Char → List Char → Bool
  | [], pat => pat.isEmpty
  | x :: xs, pat => startsWithL pat (x :: xs) || containsL xs pat

/-- Python `pat in s` on strings. -/
def strContains (s pat : String) : Bool := containsL s.toList pat.toList

/-- Python `s.lower()` (character-wise). -/
def lowerStr (s : String) : String := ⟨s.toList.map Char.toLower⟩

/-- Python `s.strip()`. -/
def trimStr (s : String) : String :=
  ⟨((s.toList.dropWhile Char.isWhitespace).reverse.dropWhile Char.isWhitespace).reverse⟩

/-- Python `s.split(c)` for a one-character separator `c`. -/
def splitOnChar (c : Char) : List Char → List (List Char)
  | [] => [[]]
  | x :: xs =>
    let r := splitOnChar c xs
    if charEq x c then [] :: r
    else
      match r with
      | [] => [[x]]
      | h :: t => (x :: h) :: t

/-- Python `'_'.join(parts)` on char lists. -/
def joinUnderscore : List (List Char) → List Char
  | [] => []
  | [p] => p
  | p :: q :: t => p ++ '_' :: joinUnderscore (q :: t)

/-- The section key computed inside `is_consistent`
(`'_'.join(v.split('_')[2:])`). -/
def sectionOf (v : String) : String :=
  ⟨joinUnderscore ((splitOnChar '_' v.toList).drop 2)⟩

/-- Python `s.split(pat)[-1]`: the text after the last occurrence of the
(non-self-overlapping) pattern `pat`, or all of `s` when `pat` does not
occur.  Used for `str(pref).split("Not on")[-1]`. -/
def afterLast (pat s : List Char) : List Char :=
  let idxs := (List.range (s.length + 1)).filter (fun i => startsWithL pat (s.drop i))
  match idxs.getLast? with
  | some i => s.drop (i + pat.length)
  | none => s

/-- A domain value: the `(timeslot, room, instructor)` triple. -/
abbrev Val := String × String × String

/-- `is_consistent(val1, val2, v1, v2)` from `src/csp.py`: two values
conflict when they share a timeslot and a room or an instructor, or when
they share a timeslot and the two variables' section keys coincide. -/
def is_consistent (val1 val2 : Val) (v1 v2 : String) : Bool :=
  let t1 := val1.1; let r1 := val1.2.1; let i1 := val1.2.2
  let t2 := val2.1; let r2 := val2.2.1; let i2 := val2.2.2
  if t1 = t2 ∧ (r1 = r2 ∨ i1 = i2) then false
  else
    let sec1 := sectionOf v1
    let sec2 := sectionOf v2
    if t1 = t2 ∧ sec1 = sec2 then false
    else true

-- ---------- Python dicts as insertion-ordered association lists ----------

/-- `k in d` for a Python dict. -/
def hasKey (d : List (String × α)) (k : String) : Bool :=
  d.any (fun p => decide (p.1 = k))

/-- `d[k]`, returning `none` when the key is absent. -/
def dlookup : List (String × α) → String → Option α
  | [], _ => none
  | (k', v) :: rest, k => if k' = k then some v else dlookup rest k

/-- Dict assignment `d[k] = v`: overwrite in place if present, else append. -/
def dinsert (d : List (String × α)) (k : String) (v : α) : List (String × α) :=
  if hasKey d k then d.map (fun p => if p.1 = k then (k, v) else p)
  else d ++ [(k, v)]

/-- Overwrite `d[k] = v` for a key known to be present (no-op when the key
is absent, which for `revise` corresponds to Python's unreachable
`KeyError` path). -/
def dset : List (String × α) → String → α → List (String × α)
  | [], _, _ => []
  | (k', v') :: rest, k, v => if k' = k then (k', v) :: rest else (k', v') :: dset rest k v

/-- `del d[k]`. -/
def derase (d : List (String × α)) (k : String) : List (String × α) :=
  d.filter (fun p => decide (p.1 ≠ k))

/-- The `domains` dict: variable name ↦ list of candidate values. -/
abbrev Domains := List (String × List Val)

/-- The `schedule` dict built by the backtracking search. -/
abbrev Sched := List (String × Val)

/-- `domains.get(v, [])` (and `domains[v]` at the places where the key is
guaranteed present). -/
def getDom (d : Domains) (v : String) : List Val := (dlookup d v).getD []

-- ---------- AC-3 ----------

/-- The list comprehension inside `revise`:
`[d1 for d1 in domains[v1] if any(is_consistent(d1, d2, v1, v2) for d2 in domains[v2])]`. -/
def reviseFilter (d : Domains) (v1 v2 : String) : List Val :=
  (getDom d v1).filter
    (fun d1 => (getDom d v2).any (fun d2 => is_consistent d1 d2 v1 v2))

/-- `revise(domains, v1, v2)` from `src/csp.py`: keep in `domains[v1]` the
values supported by some value of `domains[v2]`, and report whether the
domain shrank.  Returns the updated dict together with the flag. -/
def revise (d : Domains) (v1 v2 : String) : Domains × Bool :=
  (dset d v1 (reviseFilter d v1 v2),
   decide ((reviseFilter d v1 v2).length < (getDom d v1).length))

/-- Total number of candidate values across the `domains` dict (termination
measure for the AC-3 work-queue loop: every shrinking revision strictly
decreases it). -/
def totalSize (d : Domains) : Nat := (d.map (fun p => p.2.length)).sum

theorem getDom_nil_of_dlookup_none {d : Domains} {v : String}
    (h : dlookup d v = none) : getDom d v = [] := by
  simp [getDom, h]

theorem dset_absent {α : Type} (d : List (String × α)) (k : String) (v : α)
    (h : dlookup d k = none) : dset d k v = d := by
  induction d with
  | nil => rfl
  | cons p rest ih =>
    obtain ⟨k', v'⟩ := p
    by_cases hk : k' = k
    · simp [dlookup, hk] at h
    · simp [dlookup, hk] at h
      simp [dset, hk, ih h]

theorem totalSize_dset_of_length_le (d : Domains) (k : String) (l : List Val)
    (h : l.length ≤ (getDom d k).length) :
    totalSize (dset d k l) + (getDom d k).length = totalSize d + l.length := by
  induction d with
  | nil =>
    have hg : getDom ([] : Domains) k = [] := rfl
    rw [hg] at h
    simp at h
    simp [dset, totalSize, hg, h]
  | cons p rest ih =>
    obtain ⟨k', v'⟩ := p
    by_cases hk : k' = k
    · subst hk
      simp [dset, totalSize, getDom, dlookup]
      omega
    · have h' : getDom ((k', v') :: rest) k = getDom rest k := by
        simp [getDom, dlookup, hk]
      rw [h'] at h ⊢
      have hrec := ih h
      simp only [dset, if_neg hk] at hrec ⊢
      simp only [totalSize, List.map_cons, List.sum_cons] at hrec ⊢
      omega

theorem totalSize_dset_lt (d : Domains) (k : String) (l : List Val)
    (h : l.length < (getDom d k).length) :
    totalSize (dset d k l) < totalSize d := by
  have := totalSize_dset_of_length_le d k l (Nat.le_of_lt h)
  omega

theorem totalSize_dset_eq (d : Domains) (k : String) (l : List Val)
    (h : l.length = (getDom d k).length) :
    totalSize (dset d k l) = totalSize d := by
  have := totalSize_dset_of_length_le d k l (Nat.le_of_eq h)
  omega

/-- The work-queue loop of `ac3` (`while queue: ...`).  A popped arc
`(v1, v2)` is revised; a shrink to the empty domain aborts with `False`,
any other shrink re-enqueues `(neighbor, v1)` for every other variable.
Returns the Python return value together with the final `domains` dict. -/
def ac3Aux (vars : List String) : List (String × String) → Domains → Bool × Domains
  | [], d => (true, d)
  | (v1, v2) :: rest, d =>
    let rev := revise d v1 v2
    if h : rev.2 = true then
      if (getDom rev.1 v1).isEmpty then (false, rev.1)
      else ac3Aux vars
        (rest ++ (vars.filter (fun n => decide (n ≠ v1) && decide (n ≠ v2))).map
          (fun n => (n, v1))) rev.1
    else ac3Aux vars rest rev.1
  termination_by q d => (totalSize d, q.length)
  decreasing_by
  · apply Prod.Lex.left
    have h' : (reviseFilter d v1 v2).length < (getDom d v1).length := by
      have h2 : decide ((reviseFilter d v1 v2).length < (getDom d v1).length) = true := h
      exact of_decide_eq_true h2
    exact totalSize_dset_lt _ _ _ h'
  · have h' : ¬ ((reviseFilter d v1 v2).length < (getDom d v1).length) :=
      fun hc => h (decide_eq_true hc)
    have hle : (reviseFilter d v1 v2).length ≤ (getDom d v1).length :=
      List.length_filter_le _ _
    have heq : totalSize (revise d v1 v2).1 = totalSize d :=
      totalSize_dset_eq _ _ _ (by omega)
    rw [heq]
    exact Prod.Lex.right _ (by simp)

/-- `ac3(variables, domains, constraints)` from `src/csp.py`: seed the queue
with every constraint in both directions and run the revision loop. -/
def ac3 (vars : List String) (d : Domains) (constraints : List (String × String)) :
    Bool × Domains :=
  ac3Aux vars (constraints ++ constraints.map (fun p => (p.2, p.1))) d

-- ---------- Backtracking ----------

/-- `select_mrv(variables, schedule, domains)`: among unassigned variables,
the first one with the fewest remaining domain values (Python's `min` is
stable, so ties go to the earliest variable). -/
def select_mrv (vars : List String) (sched : Sched) (d : Domains) : Option String :=
  match vars.filter (fun v => !hasKey sched v) with
  | [] => none
  | x :: xs =>
    some (xs.foldl (fun best y =>
      if (getDom d y).length < (getDom d best).length then y else best) x)

/-- The `for val in domains.get(var, [])` loop of `solve_backtracking`:
try each candidate value in stored order; on a candidate consistent with
every already-assigned variable, bind it and recurse (`recur` is the
recursive call at one less fuel); treat a truthy result as success,
otherwise unbind and continue. -/
def tryVals (recur : Sched → Option Sched × Sched) (var : String) :
    Sched → List Val → Option Sched × Sched
  | sched, [] => (none, sched)
  | sched, val :: rest =>
    if sched.all (fun p => is_consistent val p.2 var p.1) then
      match recur (dinsert sched var val) with
      | (some r, s2) =>
        if r.isEmpty then tryVals recur var (derase s2 var) rest else (some r, s2)
      | (none, s2) => tryVals recur var (derase s2 var) rest
    else tryVals recur var sched rest

/-- `solve_backtracking(variables, domains, schedule)` from `src/csp.py`,
with a fuel parameter making the recursion structural.  Returns the Python
return value (`schedule` on completeness, else `None`) paired with the
final state of the `schedule` dict. -/
def solve_bt (vars : List String) (d : Domains) : Nat → Sched → Option Sched × Sched
  | 0, sched => (none, sched)
  | fuel + 1, sched =>
    if sched.length = vars.length then (some sched, sched)
    else
      match select_mrv vars sched d with
      | none => (none, sched)
      | some var => tryVals (solve_bt vars d fuel) var sched (getDom d var)

/-- The entry point: ample fuel (`solve_bt_fuel_stable` below shows the
result no longer depends on it). -/
def solve_backtracking (vars : List String) (d : Domains) (sched : Sched) :
    Option Sched × Sched :=
  solve_bt vars d (vars.length + 1) sched

/-- `constraints = [(v1, v2) for i, v1 in enumerate(variables) for v2 in
variables[i+1:]]` from `setup_csp`. -/
def allPairs : List String → List (String × String)
  | [] => []
  | v :: rest => rest.map (fun w => (v, w)) ++ allPairs rest

-- ---------- Derived notions used in the statements ----------

/-- Arc consistency of `a` w.r.t. `b` (the glossary's sense): every
remaining value of `domains[a]` has at least one compatible value in
`domains[b]`. -/
def arcConsB (d : Domains) (a b : String) : Bool :=
  (getDom d a).all (fun x => (getDom d b).any (fun y => is_consistent x y a b))

/-- One mutation step of the `domains` dict as performed by `revise`:
some arc's revision produced the new dict.  Every change `ac3` makes to
the domains is a chain of such steps. -/
def ReviseStep (d d' : Domains) : Prop := ∃ v1 v2, d' = (revise d v1 v2).1

/-- A `ReviseStep` along an arc with two distinct endpoints (every arc the
queue ever holds is of this shape when the constraints are well-formed). -/
def ReviseStepNe (d d' : Domains) : Prop := ∃ v1 v2, v1 ≠ v2 ∧ d' = (revise d v1 v2).1

/-- Global pairwise consistency of a schedule: any two entries binding
distinct variables satisfy the consistency predicate. -/
def PWConsistent (s : Sched) : Prop :=
  ∀ p ∈ s, ∀ q ∈ s, p.1 ≠ q.1 → is_consistent p.2 q.2 p.1 q.1 = true

/-- The number of still-unassigned variables (the depth bound of the
backtracking recursion). -/
def unassignedCnt (vars : List String) (sched : Sched) : Nat :=
  (vars.filter (fun v => !hasKey sched v)).length

/-- Well-formed constraint list over a variable list: each pair relates
two distinct declared variables (as produced by `setup_csp`). -/
def WFConstraints (vars : List String) (cs : List (String × String)) : Prop :=
  ∀ p ∈ cs, p.1 ≠ p.2 ∧ p.1 ∈ vars ∧ p.2 ∈ vars

-- ---------- Formulator (`setup_csp`) slice ----------

/-- A canonical course record (post data-loading): the `Type` column when
present, else the `LecSlots`/`LabSlots` counts drive type inference. -/
structure CourseRec where
  courseID : String
  typ : Option String
  lecSlots : Nat
  labSlots : Nat
deriving DecidableEq

/-- A canonical room record (post `make_room_id`/`get_room_capacity`
normalisation). -/
structure RoomRec where
  roomID : String
  rtype : String
  capacity : Nat
deriving DecidableEq

/-- A canonical instructor record; `preferredSlots` is the raw
`PreferredSlots` cell (`none` for a missing value). -/
structure InstructorRec where
  instructorID : String
  qualifiedCourses : String
  preferredSlots : Option String
deriving DecidableEq

/-- A canonical timeslot record.  `duration` is carried by the data but —
as the theorems below show — never consulted by `setup_csp`. -/
structure TimeSlotRec where
  timeSlotID : String
  day : String
  duration : Nat
deriving DecidableEq

/-- A canonical section record with its explicit `Courses` list. -/
structure SectionRec where
  sectionID : String
  studentCount : Nat
  courses : List String
deriving DecidableEq

/-- `normalize_course_type(course_row)` from `src/csp.py`. -/
def normalize_course_type (c : CourseRec) : String :=
  match c.typ with
  | some t => trimStr t
  | none =>
    if 0 < c.lecSlots ∧ 0 < c.labSlots then "Lecture and Lab"
    else if 0 < c.labSlots then "Lab"
    else "Lecture"

/-- `create_day_to_slots_map` applied to one day (`day_to_slots.get(day, [])`). -/
def dayToSlots (tss : List TimeSlotRec) (day : String) : List String :=
  (tss.filter (fun t => decide (t.day = day))).map (fun t => t.timeSlotID)

/-- pandas `str.contains(pat, case=False)`. -/
def containsCI (s pat : String) : Bool := strContains (lowerStr s) (lowerStr pat)

/-- The qualified-instructor filter of `setup_csp`
(`str(course_id) in str(QualifiedCourses)`). -/
def qualifiedFor (courseID : String) (insts : List InstructorRec) : List InstructorRec :=
  insts.filter (fun i => strContains i.qualifiedCourses courseID)

/-- The room filter inside `make_domain_for_type`: rooms whose type
contains `'Lecture'` (for lecture variables) or `'Lab'` (for every other
variable type), case-insensitively, with capacity ≥ the student count. -/
def room_candidates (rooms : List RoomRec) (studentCount : Nat) (vtype : String) :
    List RoomRec :=
  if vtype = "Lecture" then
    rooms.filter (fun r => containsCI r.rtype "Lecture" && decide (studentCount ≤ r.capacity))
  else
    rooms.filter (fun r => containsCI r.rtype "Lab" && decide (studentCount ≤ r.capacity))

/-- `itertools.product(timeslot_ids, room_ids, instructor_ids)`. -/
def tripleProd (ts rs ins : List String) : List Val :=
  ts.flatMap (fun t => rs.flatMap (fun r => ins.map (fun i => (t, r, i))))

/-- `make_domain_for_type(vtype)` from `src/csp.py`: the cross-product of
**all** timeslot IDs, the candidate rooms, and the qualified instructors
(empty when either of the latter two is empty). -/
def make_domain_for_type (rooms : List RoomRec) (tss : List TimeSlotRec)
    (qualified : List InstructorRec) (studentCount : Nat) (vtype : String) : List Val :=
  let rc := room_candidates rooms studentCount vtype
  if rc.isEmpty || qualified.isEmpty then []
  else tripleProd (tss.map (fun t => t.timeSlotID)) (rc.map (fun r => r.roomID))
    (qualified.map (fun i => i.instructorID))

/-- The per-value instructor-preference test of `setup_csp`: drop a value
whose instructor has a `"Not on <Day>"` preference naming the value's
timeslot's day. -/
def keepByPref (insts : List InstructorRec) (tss : List TimeSlotRec) (v : Val) : Bool :=
  match insts.find? (fun i => decide (i.instructorID = v.2.2)) with
  | none => true
  | some irow =>
    match irow.preferredSlots with
    | none => true
    | some pref =>
      if decide (pref ≠ "") && strContains pref "Not on" then
        let forbidden := trimStr ⟨afterLast "Not on".toList pref.toList⟩
        !((dayToSlots tss forbidden).any (fun s => decide (s = v.1)))
      else true

/-- The state accumulated by `setup_csp`'s loops:
`(variables, domains, empty_domain_reasons)`. -/
abbrev SetupSt := List String × List (String × List Val) × List (String × String)

/-- The body of `for vtype in var_types` in `setup_csp`: register the
variable, materialize its filtered domain, and record a diagnostic when
the domain is empty. -/
def processVtype (rooms : List RoomRec) (tss : List TimeSlotRec)
    (insts : List InstructorRec) (sectionID : String) (cnt : Nat) (courseID : String)
    (qualified : List InstructorRec) (st : SetupSt) (vtype : String) : SetupSt :=
  let varName := courseID ++ "_" ++ vtype ++ "_" ++ sectionID
  let filtered := (make_domain_for_type rooms tss qualified cnt vtype).filter
    (keepByPref insts tss)
  (st.1 ++ [varName],
   dinsert st.2.1 varName filtered,
   if filtered.isEmpty then
     dinsert st.2.2 varName ("No valid assignments found for " ++ varName)
   else st.2.2)

/-- The body of `for course_id in courses_list` in `setup_csp` (a course
missing from the courses table is skipped). -/
def processCourse (rooms : List RoomRec) (tss : List TimeSlotRec)
    (insts : List InstructorRec) (courses : List CourseRec) (sectionID : String)
    (cnt : Nat) (st : SetupSt) (courseID : String) : SetupSt :=
  match courses.find? (fun c => decide (c.courseID = courseID)) with
  | none => st
  | some crow =>
    let ctype := normalize_course_type crow
    let vtypes := if ctype = "Lecture and Lab" then ["Lecture", "Lab"] else [ctype]
    vtypes.foldl (processVtype rooms tss insts sectionID cnt courseID
      (qualifiedFor courseID insts)) st

/-- The body of `for _, section in sections_df.iterrows()` (a section with
no course list is skipped). -/
def processSection (rooms : List RoomRec) (tss : List TimeSlotRec)
    (insts : List InstructorRec) (courses : List CourseRec) (st : SetupSt)
    (sec : SectionRec) : SetupSt :=
  if sec.courses.isEmpty then st
  else sec.courses.foldl
    (processCourse rooms tss insts courses sec.sectionID sec.studentCount) st

/-- `setup_csp(data)` from `src/csp.py`, over canonical (post data-loading)
records: returns `(variables, domains, constraints, empty_domain_reasons)`.
The pandas column normalisation and course inference of the original
belong to the excluded data-loading collaborator; sections are given with
their explicit course lists. -/
def setup_csp (sections : List SectionRec) (courses : List CourseRec)
    (rooms : List RoomRec) (insts : List InstructorRec) (tss : List TimeSlotRec) :
    List String × List (String × List Val) × List (String × String) ×
      List (String × String) :=
  let st := sections.foldl (processSection rooms tss insts courses) ([], [], [])
  (st.1, st.2.1, allPairs st.1, st.2.2)

/-- The solving pipeline of `main.py` (lines 20-24): run `ac3`, then — only
on success — the backtracking search from the empty schedule.  Returns the
AC-3 verdict, the pruned domains, and the search result. -/
def run_pipeline (vars : List String) (d : Domains)
    (constraints : List (String × String)) : Bool × Domains × Option Sched :=
  let a := ac3 vars d constraints
  if a.1 then (true, a.2, (solve_backtracking vars a.2 []).1)
  else (false, a.2, none)

-- sanity checks on the string helpers (mirroring Python behaviour)
example : sectionOf "CS101_Lecture_2024_CS_G1" = "2024_CS_G1" := by decide
example : sectionOf "A" = "" := by decide
example : strContains "Not on Monday" "Not on" = true := by decide
example : trimStr "  Monday " = "Monday" := by decide
example : String.mk (afterLast "Not on".toList "Not on Monday".toList) = " Monday" := by decide
example : is_consistent ("T1", "R1", "I1") ("T1", "R1", "I2") "A_Lec_S1" "B_Lec_S2" = false := by
  decide
example : is_consistent ("T1", "R1", "I1") ("T2", "R1", "I1") "A_Lec_S1" "B_Lec_S2" = true := by
  decide
example : is_consistent ("T1", "R1", "I1") ("T1", "R2", "I2") "A_Lec_S1" "B_Lab_S1" = false := by
  decide

-- ---------- Dict lemmas ----------

theorem dlookup_dset_ne {α : Type} (d : List (String × α)) (k k' : String) (l : α)
    (h : k' ≠ k) : dlookup (dset d k l) k' = dlookup d k' := by
  induction d with
  | nil => rfl
  | cons p rest ih =>
    obtain ⟨k0, v0⟩ := p
    by_cases hk : k0 = k
    · subst hk
      have hne : ¬ (k0 = k') := fun he => h he.symm
      simp [dset, dlookup, hne]
    · simp [dset, hk, dlookup]
      split <;> simp [ih]

theorem dlookup_dset_self {α : Type} (d : List (String × α)) (k : String) (l : α) :
    dlookup (dset d k l) k = (dlookup d k).map (fun _ => l) := by
  induction d with
  | nil => rfl
  | cons p rest ih =>
    obtain ⟨k0, v0⟩ := p
    by_cases hk : k0 = k
    · subst hk
      simp [dset, dlookup]
    · simp [dset, hk, dlookup, ih]

theorem dset_getDom_self (d : Domains) (k : String) : dset d k (getDom d k) = d := by
  induction d with
  | nil => rfl
  | cons p rest ih =>
    obtain ⟨k0, v0⟩ := p
    by_cases hk : k0 = k
    · subst hk
      simp [dset, getDom, dlookup]
    · simp only [dset, if_neg hk]
      have : getDom ((k0, v0) :: rest) k = getDom rest k := by
        simp [getDom, dlookup, hk]
      rw [this, ih]

theorem getDom_dset_ne (d : Domains) (k v : String) (l : List Val) (h : v ≠ k) :
    getDom (dset d k l) v = getDom d v := by
  simp [getDom, dlookup_dset_ne d k v l h]

theorem getDom_dset_of_sublist (d : Domains) (k : String) (l : List Val)
    (h : l.Sublist (getDom d k)) : getDom (dset d k l) k = l := by
  rcases hl : dlookup d k with _ | w
  · have h0 : getDom d k = [] := by simp [getDom, hl]
    rw [h0] at h
    have : l = [] := List.sublist_nil.mp h
    simp [getDom, dlookup_dset_self, hl, this]
  · simp [getDom, dlookup_dset_self, hl]

theorem getDom_dset_sublist (d : Domains) (k : String) (l : List Val)
    (h : l.Sublist (getDom d k)) (v : String) :
    (getDom (dset d k l) v).Sublist (getDom d v) := by
  by_cases hv : v = k
  · subst hv
    rw [getDom_dset_of_sublist d v l h]
    exact h
  · rw [getDom_dset_ne d k v l hv]

-- ---------- `reviseFilter` and `revise` lemmas ----------

theorem reviseFilter_sublist (d : Domains) (v1 v2 : String) :
    (reviseFilter d v1 v2).Sublist (getDom d v1) :=
  List.filter_sublist _

theorem mem_reviseFilter {d : Domains} {v1 v2 : String} {x : Val} :
    x ∈ reviseFilter d v1 v2 ↔
      x ∈ getDom d v1 ∧ ∃ y ∈ getDom d v2, is_consistent x y v1 v2 = true := by
  simp [reviseFilter, List.mem_filter]

theorem revise_fst (d : Domains) (v1 v2 : String) :
    (revise d v1 v2).1 = dset d v1 (reviseFilter d v1 v2) := rfl

theorem revise_snd_eq_true {d : Domains} {v1 v2 : String} :
    (revise d v1 v2).2 = true ↔
      (reviseFilter d v1 v2).length < (getDom d v1).length := by
  simp [revise]

theorem reviseFilter_eq_of_not_shrink {d : Domains} {v1 v2 : String}
    (h : ¬ (revise d v1 v2).2 = true) : reviseFilter d v1 v2 = getDom d v1 := by
  rw [revise_snd_eq_true] at h
  exact (reviseFilter_sublist d v1 v2).eq_of_length (by
    have := (reviseFilter_sublist d v1 v2).length_le
    omega)

theorem revise_fst_of_not_shrink {d : Domains} {v1 v2 : String}
    (h : ¬ (revise d v1 v2).2 = true) : (revise d v1 v2).1 = d := by
  rw [revise_fst, reviseFilter_eq_of_not_shrink h, dset_getDom_self]

theorem getDom_revise_self (d : Domains) (v1 v2 : String) :
    getDom (revise d v1 v2).1 v1 = reviseFilter d v1 v2 := by
  rw [revise_fst]
  exact getDom_dset_of_sublist d v1 _ (reviseFilter_sublist d v1 v2)

theorem getDom_revise_ne (d : Domains) (v1 v2 v : String) (h : v ≠ v1) :
    getDom (revise d v1 v2).1 v = getDom d v := by
  rw [revise_fst]
  exact getDom_dset_ne d v1 v _ h

theorem getDom_revise_sublist (d : Domains) (v1 v2 v : String) :
    (getDom (revise d v1 v2).1 v).Sublist (getDom d v) := by
  rw [revise_fst]
  exact getDom_dset_sublist d v1 _ (reviseFilter_sublist d v1 v2) v

-- ---------- Symmetry of the consistency predicate ----------

theorem is_consistent_symm (x y : Val) (a b : String) :
    is_consistent x y a b = is_consistent y x b a := by
  obtain ⟨t1, r1, i1⟩ := x
  obtain ⟨t2, r2, i2⟩ := y
  by_cases h1 : t1 = t2
  · subst h1
    by_cases h2 : r1 = r2 <;> by_cases h3 : i1 = i2 <;>
      by_cases h4 : sectionOf a = sectionOf b <;>
      simp [is_consistent, h2, h3, h4, eq_comm]
  · have h1' : ¬ t2 = t1 := fun h => h1 h.symm
    simp [is_consistent, h1, h1']

-- ---------- `ac3Aux` step lemmas ----------

theorem ac3Aux_nil (vars : List String) (d : Domains) : ac3Aux vars [] d = (true, d) := by
  simp [ac3Aux]

theorem ac3Aux_cons_fail (vars : List String) (v1 v2 : String)
    (rest : List (String × String)) (d : Domains)
    (h : (revise d v1 v2).2 = true) (he : (getDom (revise d v1 v2).1 v1).isEmpty = true) :
    ac3Aux vars ((v1, v2) :: rest) d = (false, (revise d v1 v2).1) := by
  rw [ac3Aux]
  simp [h, he]

theorem ac3Aux_cons_shrink (vars : List String) (v1 v2 : String)
    (rest : List (String × String)) (d : Domains)
    (h : (revise d v1 v2).2 = true)
    (he : ¬ (getDom (revise d v1 v2).1 v1).isEmpty = true) :
    ac3Aux vars ((v1, v2) :: rest) d =
      ac3Aux vars
        (rest ++ (vars.filter (fun n => decide (n ≠ v1) && decide (n ≠ v2))).map
          (fun n => (n, v1))) (revise d v1 v2).1 := by
  rw [ac3Aux]
  simp [h, he]

theorem ac3Aux_cons_noshrink (vars : List String) (v1 v2 : String)
    (rest : List (String × String)) (d : Domains)
    (h : ¬ (revise d v1 v2).2 = true) :
    ac3Aux vars ((v1, v2) :: rest) d = ac3Aux vars rest d := by
  rw [ac3Aux]
  simp only [h, dite_false, Bool.false_eq_true]
  rw [revise_fst_of_not_shrink h]

-- ---------- AC-3: monotonicity, reachability, removal justification ----------

theorem ac3Aux_getDom_sublist (vars : List String) (q : List (String × String))
    (d : Domains) (v : String) :
    (getDom (ac3Aux vars q d).2 v).Sublist (getDom d v) := by
  induction q, d using ac3Aux.induct vars with
  | case1 d => simp [ac3Aux_nil]
  | case2 v1 v2 rest d rev hrev hemp =>
    rw [ac3Aux_cons_fail vars v1 v2 rest d hrev hemp]
    exact getDom_revise_sublist d v1 v2 v
  | case3 v1 v2 rest d rev hrev hemp ih =>
    rw [ac3Aux_cons_shrink vars v1 v2 rest d hrev hemp]
    exact ih.trans (getDom_revise_sublist d v1 v2 v)
  | case4 v1 v2 rest d rev hrev ih =>
    rw [ac3Aux_cons_noshrink vars v1 v2 rest d hrev]
    have hd : rev.1 = d := revise_fst_of_not_shrink hrev
    rw [hd] at ih
    exact ih

theorem ac3Aux_reach (vars : List String) (q : List (String × String)) (d : Domains) :
    Relation.ReflTransGen ReviseStep d (ac3Aux vars q d).2 := by
  induction q, d using ac3Aux.induct vars with
  | case1 d =>
    rw [ac3Aux_nil]
  | case2 v1 v2 rest d rev hrev hemp =>
    rw [ac3Aux_cons_fail vars v1 v2 rest d hrev hemp]
    exact Relation.ReflTransGen.single ⟨v1, v2, rfl⟩
  | case3 v1 v2 rest d rev hrev hemp ih =>
    rw [ac3Aux_cons_shrink vars v1 v2 rest d hrev hemp]
    exact Relation.ReflTransGen.head ⟨v1, v2, rfl⟩ ih
  | case4 v1 v2 rest d rev hrev ih =>
    rw [ac3Aux_cons_noshrink vars v1 v2 rest d hrev]
    have hd : rev.1 = d := revise_fst_of_not_shrink hrev
    rw [hd] at ih
    exact ih

theorem dlookup_mem {α : Type} {d : List (String × α)} {k : String} {l : α}
    (h : dlookup d k = some l) : (k, l) ∈ d := by
  induction d with
  | nil => simp [dlookup] at h
  | cons p rest ih =>
    obtain ⟨k0, v0⟩ := p
    by_cases hk : k0 = k
    · subst hk
      simp [dlookup] at h
      simp [h]
    · simp [dlookup, hk] at h
      exact List.mem_cons_of_mem _ (ih h)

theorem getDom_eq_nil_of_allEmpty {d : Domains} (h : ∀ p ∈ d, p.2 = ([] : List Val))
    (v : String) : getDom d v = [] := by
  rcases hl : dlookup d v with _ | w
  · simp [getDom, hl]
  · simp [getDom, hl]
    exact h (v, w) (dlookup_mem hl)

theorem revise_noshrink_of_source_nil {d : Domains} {v1 v2 : String}
    (h : getDom d v1 = []) : ¬ (revise d v1 v2).2 = true := by
  rw [revise_snd_eq_true]
  have : reviseFilter d v1 v2 = [] := by simp [reviseFilter, h]
  simp [this, h]

/-- With every domain empty, every revision is a no-op and `ac3Aux` drains
the queue and answers `True` with the domains untouched. -/
theorem ac3Aux_true_of_allEmpty (vars : List String) (q : List (String × String))
    (d : Domains) (h : ∀ p ∈ d, p.2 = ([] : List Val)) :
    ac3Aux vars q d = (true, d) := by
  induction q with
  | nil => exact ac3Aux_nil vars d
  | cons p rest ih =>
    obtain ⟨v1, v2⟩ := p
    rw [ac3Aux_cons_noshrink vars v1 v2 rest d
      (revise_noshrink_of_source_nil (getDom_eq_nil_of_allEmpty h v1))]
    exact ih

/-- `ac3` answers `False` only when some revision along the way shrank a
non-empty domain to the empty one: the failing intermediate state is
reachable by revision steps, had a non-empty domain for the failing
variable, and the final revision emptied it. -/
theorem ac3Aux_false_spec (vars : List String) (q : List (String × String))
    (d : Domains) :
    ∀ dfin, ac3Aux vars q d = (false, dfin) →
    ∃ dmid v1 v2, Relation.ReflTransGen ReviseStep d dmid ∧
      getDom dmid v1 ≠ [] ∧ (revise dmid v1 v2).2 = true ∧
      getDom (revise dmid v1 v2).1 v1 = [] ∧ dfin = (revise dmid v1 v2).1 := by
  induction q, d using ac3Aux.induct vars with
  | case1 d =>
    intro dfin heq
    rw [ac3Aux_nil] at heq
    simp at heq
  | case2 v1 v2 rest d rev hrev hemp =>
    intro dfin heq
    rw [ac3Aux_cons_fail vars v1 v2 rest d hrev hemp] at heq
    have hdfin : dfin = (revise d v1 v2).1 := ((Prod.ext_iff.mp heq).2).symm
    subst hdfin
    refine ⟨d, v1, v2, Relation.ReflTransGen.refl, ?_, hrev, ?_, rfl⟩
    · intro hnil
      exact absurd hrev (revise_noshrink_of_source_nil hnil)
    · exact List.isEmpty_iff.mp hemp
  | case3 v1 v2 rest d rev hrev hemp ih =>
    intro dfin heq
    rw [ac3Aux_cons_shrink vars v1 v2 rest d hrev hemp] at heq
    obtain ⟨dmid, w1, w2, hchain, hne, hshr, hnil, hfin⟩ := ih dfin heq
    exact ⟨dmid, w1, w2, Relation.ReflTransGen.head ⟨v1, v2, rfl⟩ hchain, hne, hshr,
      hnil, hfin⟩
  | case4 v1 v2 rest d rev hrev ih =>
    intro dfin heq
    rw [ac3Aux_cons_noshrink vars v1 v2 rest d hrev] at heq
    have hd : rev.1 = d := revise_fst_of_not_shrink hrev
    rw [hd] at ih
    exact ih dfin heq

/-- A single revision step removes a value only when no value of the other
variable's current domain supports it. -/
theorem ReviseStep_removed {d d' : Domains} (hstep : ReviseStep d d') {v : String}
    {x : Val} (hx : x ∈ getDom d v) (hx' : x ∉ getDom d' v) :
    ∃ w, ∀ y ∈ getDom d w, is_consistent x y v w = false := by
  obtain ⟨v1, v2, rfl⟩ := hstep
  by_cases hv : v = v1
  · subst hv
    rw [getDom_revise_self] at hx'
    refine ⟨v2, fun y hy => ?_⟩
    by_contra hc
    exact hx' (mem_reviseFilter.mpr ⟨hx, y, hy, by
      cases h : is_consistent x y v v2
      · exact absurd h hc
      · rfl⟩)
  · rw [getDom_revise_ne d v1 v2 v hv] at hx'
    exact absurd hx hx'

/-- As `ReviseStep_removed`, with the supporting variable distinct from the
revised one when the step's arc had distinct endpoints. -/
theorem ReviseStepNe_removed {d d' : Domains} (hstep : ReviseStepNe d d') {v : String}
    {x : Val} (hx : x ∈ getDom d v) (hx' : x ∉ getDom d' v) :
    ∃ w, w ≠ v ∧ ∀ y ∈ getDom d w, is_consistent x y v w = false := by
  obtain ⟨v1, v2, hne, rfl⟩ := hstep
  by_cases hv : v = v1
  · subst hv
    rw [getDom_revise_self] at hx'
    refine ⟨v2, fun he => hne (he.symm), fun y hy => ?_⟩
    by_contra hc
    exact hx' (mem_reviseFilter.mpr ⟨hx, y, hy, by
      cases h : is_consistent x y v v2
      · exact absurd h hc
      · rfl⟩)
  · rw [getDom_revise_ne d v1 v2 v hv] at hx'
    exact absurd hx hx'

/-- Chain variant of `ac3Aux_reach`: when every arc the queue ever carries
has distinct endpoints, the final domains are reached by distinct-arc
revision steps.  The re-enqueued arcs `(n, v1)` satisfy this by the
`n not in (v1, v2)` filter. -/
theorem ac3Aux_reachNe (vars : List String) (q : List (String × String)) (d : Domains)
    (hqn : ∀ p ∈ q, p.1 ≠ p.2) :
    Relation.ReflTransGen ReviseStepNe d (ac3Aux vars q d).2 := by
  induction q, d using ac3Aux.induct vars with
  | case1 d =>
    rw [ac3Aux_nil]
  | case2 v1 v2 rest d rev hrev hemp =>
    rw [ac3Aux_cons_fail vars v1 v2 rest d hrev hemp]
    exact Relation.ReflTransGen.single ⟨v1, v2, hqn (v1, v2) (List.mem_cons_self _ _), rfl⟩
  | case3 v1 v2 rest d rev hrev hemp ih =>
    rw [ac3Aux_cons_shrink vars v1 v2 rest d hrev hemp]
    refine Relation.ReflTransGen.head
      ⟨v1, v2, hqn (v1, v2) (List.mem_cons_self _ _), rfl⟩ (ih ?_)
    intro p hp
    rcases List.mem_append.mp hp with hmem | hmem
    · exact hqn p (List.mem_cons_of_mem _ hmem)
    · obtain ⟨n, hn, rfl⟩ := List.mem_map.mp hmem
      have := List.of_mem_filter hn
      simp at this
      exact this.1
  | case4 v1 v2 rest d rev hrev ih =>
    rw [ac3Aux_cons_noshrink vars v1 v2 rest d hrev]
    have hd : rev.1 = d := revise_fst_of_not_shrink hrev
    rw [hd] at ih
    exact ih fun p hp => hqn p (List.mem_cons_of_mem _ hp)

/-- First-crossing extraction: a value present initially and absent finally
was removed at some reachable intermediate state, where its removal was
justified against a single other variable. -/
theorem chain_first_removal {d0 dfin : Domains}
    (hchain : Relation.ReflTransGen ReviseStep d0 dfin) {v : String} {x : Val} :
    x ∈ getDom d0 v → x ∉ getDom dfin v →
    ∃ dmid, Relation.ReflTransGen ReviseStep d0 dmid ∧ x ∈ getDom dmid v ∧
      ∃ w, ∀ y ∈ getDom dmid w, is_consistent x y v w = false := by
  induction hchain using Relation.ReflTransGen.head_induction_on with
  | refl => intro hx hx'; exact absurd hx hx'
  | head hstep htail ih =>
    rename_i a c
    intro hx hx'
    by_cases hc : x ∈ getDom c v
    · obtain ⟨dmid, hchain, hmem, hjust⟩ := ih hc hx'
      exact ⟨dmid, Relation.ReflTransGen.head hstep hchain, hmem, hjust⟩
    · obtain ⟨w, hw⟩ := ReviseStep_removed hstep hx hc
      exact ⟨a, Relation.ReflTransGen.refl, hx, w, hw⟩

/-- As `chain_first_removal` for distinct-arc chains: the justifying
variable is distinct from the revised one. -/
theorem chain_first_removalNe {d0 dfin : Domains}
    (hchain : Relation.ReflTransGen ReviseStepNe d0 dfin) {v : String} {x : Val} :
    x ∈ getDom d0 v → x ∉ getDom dfin v →
    ∃ dmid, Relation.ReflTransGen ReviseStepNe d0 dmid ∧ x ∈ getDom dmid v ∧
      ∃ w, w ≠ v ∧ ∀ y ∈ getDom dmid w, is_consistent x y v w = false := by
  induction hchain using Relation.ReflTransGen.head_induction_on with
  | refl => intro hx hx'; exact absurd hx hx'
  | head hstep htail ih =>
    rename_i a c
    intro hx hx'
    by_cases hc : x ∈ getDom c v
    · obtain ⟨dmid, hchain, hmem, hjust⟩ := ih hc hx'
      exact ⟨dmid, Relation.ReflTransGen.head hstep hchain, hmem, hjust⟩
    · obtain ⟨w, hwne, hw⟩ := ReviseStepNe_removed hstep hx hc
      exact ⟨a, Relation.ReflTransGen.refl, hx, w, hwne, hw⟩

-- ---------- Arc-consistency preservation and the AC-3 fixed point ----------

theorem arcConsB_iff {d : Domains} {a b : String} :
    arcConsB d a b = true ↔
      ∀ x ∈ getDom d a, ∃ y ∈ getDom d b, is_consistent x y a b = true := by
  simp [arcConsB]

/-- Shrinking the source domain and keeping the target domain preserves arc
consistency. -/
theorem arcCons_of_sub {d d' : Domains} {a b : String}
    (hsub : (getDom d' a).Sublist (getDom d a)) (heq : getDom d' b = getDom d b)
    (h : arcConsB d a b = true) : arcConsB d' a b = true := by
  rw [arcConsB_iff] at h ⊢
  intro x hx
  rw [heq]
  exact h x (hsub.mem hx)

/-- Right after revising `(v1, v2)`, the arc `(v1, v2)` is consistent. -/
theorem arcCons_post_revise (d : Domains) (v1 v2 : String) (hne : v1 ≠ v2) :
    arcConsB (revise d v1 v2).1 v1 v2 = true := by
  rw [arcConsB_iff]
  intro x hx
  rw [getDom_revise_self] at hx
  obtain ⟨-, y, hy, hcons⟩ := mem_reviseFilter.mp hx
  rw [getDom_revise_ne d v1 v2 v2 (Ne.symm hne)]
  exact ⟨y, hy, hcons⟩

/-- Revising `(v1, v2)` cannot break the reverse arc `(v2, v1)`: by symmetry
of the predicate, a value removed from `domains[v1]` supported no value of
`domains[v2]`. -/
theorem arcCons_symm_preserve {d : Domains} {v1 v2 : String} (hne : v2 ≠ v1)
    (h : arcConsB d v2 v1 = true) : arcConsB (revise d v1 v2).1 v2 v1 = true := by
  rw [arcConsB_iff] at h ⊢
  intro y hy
  rw [getDom_revise_ne d v1 v2 v2 hne] at hy
  obtain ⟨x, hx, hcons⟩ := h y hy
  refine ⟨x, ?_, hcons⟩
  rw [getDom_revise_self]
  refine mem_reviseFilter.mpr ⟨hx, y, hy, ?_⟩
  rw [is_consistent_symm]
  exact hcons

/-- A non-shrinking revision witnesses that the arc was already consistent. -/
theorem arcCons_of_noshrink {d : Domains} {v1 v2 : String}
    (h : ¬ (revise d v1 v2).2 = true) : arcConsB d v1 v2 = true := by
  have hfe : reviseFilter d v1 v2 = getDom d v1 := reviseFilter_eq_of_not_shrink h
  rw [arcConsB_iff]
  intro x hx
  have := List.filter_eq_self.mp hfe x hx
  simpa using this

/-- Conversely, an already-consistent arc never shrinks under revision. -/
theorem noshrink_of_arcCons {d : Domains} {v1 v2 : String}
    (h : arcConsB d v1 v2 = true) : ¬ (revise d v1 v2).2 = true := by
  have hfe : reviseFilter d v1 v2 = getDom d v1 := by
    apply List.filter_eq_self.mpr
    intro x hx
    have := arcConsB_iff.mp h x hx
    simpa [reviseFilter] using this
  rw [revise_snd_eq_true, hfe]
  omega

/-- With every queued arc already consistent, `ac3Aux` drains the queue
without touching the domains. -/
theorem ac3Aux_of_allCons (vars : List String) (q : List (String × String))
    (d : Domains) (h : ∀ p ∈ q, arcConsB d p.1 p.2 = true) :
    ac3Aux vars q d = (true, d) := by
  induction q with
  | nil => exact ac3Aux_nil vars d
  | cons p rest ih =>
    obtain ⟨v1, v2⟩ := p
    rw [ac3Aux_cons_noshrink vars v1 v2 rest d
      (noshrink_of_arcCons (h (v1, v2) (List.mem_cons_self _ _)))]
    exact ih fun p hp => h p (List.mem_cons_of_mem _ hp)

/-- The queue invariant of AC-3: every arc of the initial arc set is either
still queued or currently consistent; on successful termination every
initial arc is therefore consistent.  Requires the arcs to be well-formed
(distinct endpoints, both ends declared variables) so that the re-enqueue
step covers everything the shrink may have broken. -/
theorem ac3Aux_invariant (vars : List String) (arcs0 : List (String × String))
    (hwf : ∀ p ∈ arcs0, p.1 ≠ p.2 ∧ p.1 ∈ vars ∧ p.2 ∈ vars)
    (q : List (String × String)) (d : Domains) :
    ∀ dfin, (∀ p ∈ q, p.1 ≠ p.2) →
    (∀ p ∈ arcs0, p ∈ q ∨ arcConsB d p.1 p.2 = true) →
    ac3Aux vars q d = (true, dfin) →
    ∀ p ∈ arcs0, arcConsB dfin p.1 p.2 = true := by
  induction q, d using ac3Aux.induct vars with
  | case1 d =>
    intro dfin hqn hinv heq p hp
    rw [ac3Aux_nil] at heq
    have hd : d = dfin := (Prod.ext_iff.mp heq).2
    subst hd
    rcases hinv p hp with hmem | hcons
    · exact absurd hmem (List.not_mem_nil p)
    · exact hcons
  | case2 v1 v2 rest d rev hrev hemp =>
    intro dfin hqn hinv heq
    rw [ac3Aux_cons_fail vars v1 v2 rest d hrev hemp] at heq
    exact absurd (Prod.ext_iff.mp heq).1 (by simp)
  | case3 v1 v2 rest d rev hrev hemp ih =>
    intro dfin hqn hinv heq p hp
    rw [ac3Aux_cons_shrink vars v1 v2 rest d hrev hemp] at heq
    have hne12 : v1 ≠ v2 := hqn (v1, v2) (List.mem_cons_self _ _)
    refine ih dfin ?_ ?_ heq p hp
    · -- re-enqueued arcs have distinct endpoints
      intro p' hp'
      rcases List.mem_append.mp hp' with hmem | hmem
      · exact hqn p' (List.mem_cons_of_mem _ hmem)
      · obtain ⟨n, hn, rfl⟩ := List.mem_map.mp hmem
        have := List.of_mem_filter hn
        simp at this
        exact this.1
    · -- the invariant is preserved by the shrink step
      intro p' hp'
      obtain ⟨hpne, hp1, hp2⟩ := hwf p' hp'
      rcases hinv p' hp' with hmem | hcons
      · rcases List.mem_cons.mp hmem with hhead | htail
        · -- the popped arc is consistent after its own revision
          right
          rw [hhead]
          rw [hhead] at hpne
          exact arcCons_post_revise d v1 v2 hpne
        · exact Or.inl (List.mem_append_left _ htail)
      · by_cases hb : p'.2 = v1
        · by_cases ha : p'.1 = v2
          · -- reverse arc: preserved by symmetry of the predicate
            right
            have hp'eq : p' = (v2, v1) := Prod.ext ha hb
            rw [hp'eq] at hcons ⊢
            exact arcCons_symm_preserve (Ne.symm hne12) hcons
          · -- a genuinely affected arc: it was re-enqueued
            left
            apply List.mem_append_right
            apply List.mem_map.mpr
            refine ⟨p'.1, ?_, ?_⟩
            · apply List.mem_filter.mpr
              refine ⟨hp1, ?_⟩
              have hav1 : p'.1 ≠ v1 := by
                intro hcon
                exact hpne (hcon.trans hb.symm)
              simp [hav1, ha]
            · exact Prod.ext rfl hb.symm
        · -- target domain untouched: consistency preserved
          right
          exact arcCons_of_sub (getDom_revise_sublist d v1 v2 p'.1)
            (getDom_revise_ne d v1 v2 p'.2 hb) hcons
  | case4 v1 v2 rest d rev hrev ih =>
    intro dfin hqn hinv heq p hp
    rw [ac3Aux_cons_noshrink vars v1 v2 rest d hrev] at heq
    have hd : rev.1 = d := revise_fst_of_not_shrink hrev
    rw [hd] at ih
    refine ih dfin (fun p' hp' => hqn p' (List.mem_cons_of_mem _ hp')) ?_ heq p hp
    intro p' hp'
    rcases hinv p' hp' with hmem | hcons
    · rcases List.mem_cons.mp hmem with hhead | htail
      · right
        rw [hhead]
        exact arcCons_of_noshrink hrev
      · exact Or.inl htail
    · exact Or.inr hcons

-- ---------- Backtracking: schedule-dict lemmas ----------

theorem hasKey_eq_false_iff {α : Type} {s : List (String × α)} {k : String} :
    hasKey s k = false ↔ ∀ p ∈ s, p.1 ≠ k := by
  simp [hasKey]

theorem dinsert_of_not_hasKey {α : Type} {s : List (String × α)} {k : String}
    (v : α) (h : hasKey s k = false) : dinsert s k v = s ++ [(k, v)] := by
  simp [dinsert, h]

theorem derase_append_single {α : Type} {s : List (String × α)} {k : String}
    (v : α) (h : ∀ p ∈ s, p.1 ≠ k) : derase (s ++ [(k, v)]) k = s := by
  rw [derase, List.filter_append]
  have h1 : s.filter (fun p => decide (p.1 ≠ k)) = s :=
    List.filter_eq_self.mpr (fun p hp => by simp [h p hp])
  have h2 : List.filter (fun p => decide (p.1 ≠ k)) [(k, v)] = [] := by simp
  rw [h1, h2, List.append_nil]

theorem length_dinsert {α : Type} (s : List (String × α)) (k : String) (v : α) :
    s.length ≤ (dinsert s k v).length := by
  rw [dinsert]
  split
  · simp
  · simp

theorem length_dinsert_pos {α : Type} (s : List (String × α)) (k : String)
    (v : α) : 1 ≤ (dinsert s k v).length := by
  rw [dinsert]
  split
  · rename_i h
    rcases s with _ | ⟨p, rest⟩
    · simp [hasKey] at h
    · simp
  · simp

theorem mem_dinsert {α : Type} {s : List (String × α)} {k : String} {v : α}
    {q : String × α} (h : q ∈ dinsert s k v) : q = (k, v) ∨ q ∈ s := by
  rw [dinsert] at h
  by_cases hk : hasKey s k = true
  · rw [if_pos hk] at h
    obtain ⟨p, hp, hq⟩ := List.mem_map.mp h
    by_cases hpk : p.1 = k
    · rw [if_pos hpk] at hq
      exact Or.inl hq.symm
    · rw [if_neg hpk] at hq
      exact Or.inr (hq ▸ hp)
  · rw [if_neg hk] at h
    rcases List.mem_append.mp h with hmem | hmem
    · exact Or.inr hmem
    · simp at hmem
      exact Or.inl (by simp [hmem])

-- ---------- `select_mrv` lemmas ----------

theorem foldl_min_mem (f : String → Nat) :
    ∀ (xs : List String) (x : String),
      xs.foldl (fun best y => if f y < f best then y else best) x ∈ x :: xs := by
  intro xs
  induction xs with
  | nil => intro x; simp
  | cons y ys ih =>
    intro x
    simp only [List.foldl_cons]
    have hmem := ih (if f y < f x then y else x)
    rcases List.mem_cons.mp hmem with heq | htail
    · rw [heq]
      split
      · simp
      · simp
    · simp [htail]

theorem select_mrv_some {vars : List String} {sched : Sched} {d : Domains}
    {var : String} (h : select_mrv vars sched d = some var) :
    var ∈ vars ∧ hasKey sched var = false := by
  rw [select_mrv] at h
  rcases hf : vars.filter (fun v => !hasKey sched v) with _ | ⟨x, xs⟩
  · rw [hf] at h
    simp at h
  · rw [hf] at h
    simp only [Option.some.injEq] at h
    have hmem : var ∈ x :: xs := by
      rw [← h]
      exact foldl_min_mem (fun y => (getDom d y).length) xs x
    rw [← hf] at hmem
    have := List.mem_filter.mp hmem
    refine ⟨this.1, ?_⟩
    have hb := this.2
    simp at hb
    simp [hb]

-- ---------- Backtracking: joint state invariant ----------

/-- The invariant of the inner candidate loop, parameterized over the
recursive call: on a `None` answer the schedule dict is exactly restored;
on a truthy answer the returned dict is the final state and extends the
entry state in size. -/
theorem tryVals_inv (recur : Sched → Option Sched × Sched)
    (hrec_none : ∀ s, (recur s).1 = none → (recur s).2 = s)
    (hrec_some : ∀ s r, (recur s).1 = some r → (recur s).2 = r ∧ s.length ≤ r.length)
    (var : String) :
    ∀ vals (sched : Sched), (∀ p ∈ sched, p.1 ≠ var) →
      ((tryVals recur var sched vals).1 = none →
        (tryVals recur var sched vals).2 = sched) ∧
      (∀ r, (tryVals recur var sched vals).1 = some r →
        (tryVals recur var sched vals).2 = r ∧ sched.length ≤ r.length) := by
  intro vals
  induction vals with
  | nil =>
    intro sched hfresh
    constructor
    · intro _; rfl
    · intro r hr; simp [tryVals] at hr
  | cons val rest ih =>
    intro sched hfresh
    by_cases hch : sched.all (fun p => is_consistent val p.2 var p.1) = true
    · have hkey : hasKey sched var = false := hasKey_eq_false_iff.mpr hfresh
      have hins : dinsert sched var val = sched ++ [(var, val)] :=
        dinsert_of_not_hasKey val hkey
      rcases hrun : recur (dinsert sched var val) with ⟨res, s2⟩
      rcases res with _ | r0
      · -- recursion failed: state restored, loop continues on the rest
        have hs2 : s2 = dinsert sched var val := by
          have := hrec_none (dinsert sched var val) (by rw [hrun])
          rw [hrun] at this
          exact this
        have her : derase s2 var = sched := by
          rw [hs2, hins]
          exact derase_append_single val hfresh
        have hstep : tryVals recur var sched (val :: rest)
            = tryVals recur var sched rest := by
          simp only [tryVals, hch, if_true, hrun]
          rw [her]
        rw [hstep]
        exact ih sched hfresh
      · -- recursion succeeded
        have hsr : s2 = r0 ∧ (dinsert sched var val).length ≤ r0.length := by
          have := hrec_some (dinsert sched var val) r0 (by rw [hrun])
          rw [hrun] at this
          exact this
        have hr0ne : r0.isEmpty = false := by
          rcases r0 with _ | _
          · exfalso
            have h2 := hsr.2
            have h1 := length_dinsert_pos sched var val
            simp only [List.length_nil] at h2
            omega
          · rfl
        have hstep : tryVals recur var sched (val :: rest) = (some r0, s2) := by
          simp only [tryVals, hch, if_true, hrun, hr0ne]
          simp
        rw [hstep]
        constructor
        · intro hnone; simp at hnone
        · intro r hr
          simp only [Option.some.injEq] at hr
          subst hr
          refine ⟨hsr.1, ?_⟩
          have h2 := hsr.2
          rw [hins] at h2
          simp at h2
          omega
    · have hstep : tryVals recur var sched (val :: rest)
          = tryVals recur var sched rest := by
        simp only [tryVals, hch]
        simp
      rw [hstep]
      exact ih sched hfresh

/-- Joint state invariant of `solve_bt`: a failing call restores the
schedule dict exactly; a successful call returns the final dict, which
extends the entry dict in size. -/
theorem solve_bt_inv (vars : List String) (d : Domains) :
    ∀ (fuel : Nat) (sched : Sched),
      ((solve_bt vars d fuel sched).1 = none → (solve_bt vars d fuel sched).2 = sched) ∧
      (∀ r, (solve_bt vars d fuel sched).1 = some r →
        (solve_bt vars d fuel sched).2 = r ∧ sched.length ≤ r.length) := by
  intro fuel
  induction fuel with
  | zero =>
    intro sched
    constructor
    · intro _; rfl
    · intro r hr; simp [solve_bt] at hr
  | succ fuel ih =>
    intro sched
    by_cases hlen : sched.length = vars.length
    · constructor
      · intro hnone
        simp [solve_bt, hlen] at hnone
      · intro r hr
        simp only [solve_bt, hlen, if_true] at hr ⊢
        simp only [Option.some.injEq] at hr
        subst hr
        exact ⟨rfl, by omega⟩
    · rcases hsel : select_mrv vars sched d with _ | var
      · constructor
        · intro _
          simp [solve_bt, hlen, hsel]
        · intro r hr
          simp [solve_bt, hlen, hsel] at hr
      · have hfresh : ∀ p ∈ sched, p.1 ≠ var :=
          hasKey_eq_false_iff.mp (select_mrv_some hsel).2
        have hstep : solve_bt vars d (fuel + 1) sched
            = tryVals (solve_bt vars d fuel) var sched (getDom d var) := by
          simp [solve_bt, hlen, hsel]
        rw [hstep]
        exact tryVals_inv (solve_bt vars d fuel)
          (fun s => (ih s).1) (fun s r => (ih s).2 r) var (getDom d var) sched hfresh

-- ---------- Backtracking: pairwise consistency of the result ----------

theorem PWConsistent_nil : PWConsistent [] := by
  intro p hp
  simp at hp

theorem PWConsistent_dinsert {sched : Sched} {var : String} {val : Val}
    (hpw : PWConsistent sched)
    (hall : ∀ p ∈ sched, is_consistent val p.2 var p.1 = true) :
    PWConsistent (dinsert sched var val) := by
  intro p hp q hq hne
  rcases mem_dinsert hp with hpv | hpm
  · rcases mem_dinsert hq with hqv | hqm
    · rw [hpv, hqv] at hne
      exact absurd rfl hne
    · rw [hpv]
      exact hall q hqm
  · rcases mem_dinsert hq with hqv | hqm
    · rw [hqv]
      rw [is_consistent_symm]
      exact hall p hpm
    · exact hpw p hpm q hqm hne

/-- The candidate loop only ever returns a truthy result whose schedule is
pairwise consistent, given that the recursive call does so: the candidate
was checked against every bound variable before the bind. -/
theorem tryVals_PW (recur : Sched → Option Sched × Sched)
    (hrec_none : ∀ s, (recur s).1 = none → (recur s).2 = s)
    (hrec_some : ∀ s r, (recur s).1 = some r → (recur s).2 = r ∧ s.length ≤ r.length)
    (hrec_pw : ∀ s, PWConsistent s → ∀ r, (recur s).1 = some r → PWConsistent r)
    (var : String) :
    ∀ vals (sched : Sched), (∀ p ∈ sched, p.1 ≠ var) → PWConsistent sched →
      ∀ r, (tryVals recur var sched vals).1 = some r → PWConsistent r := by
  intro vals
  induction vals with
  | nil =>
    intro sched hfresh hpw r hr
    simp [tryVals] at hr
  | cons val rest ih =>
    intro sched hfresh hpw r hr
    by_cases hch : sched.all (fun p => is_consistent val p.2 var p.1) = true
    · have hkey : hasKey sched var = false := hasKey_eq_false_iff.mpr hfresh
      have hins : dinsert sched var val = sched ++ [(var, val)] :=
        dinsert_of_not_hasKey val hkey
      have hpw1 : PWConsistent (dinsert sched var val) :=
        PWConsistent_dinsert hpw (fun p hp => by
          have := List.all_eq_true.mp hch p hp
          simpa using this)
      rcases hrun : recur (dinsert sched var val) with ⟨res, s2⟩
      rcases res with _ | r0
      · have hs2 : s2 = dinsert sched var val := by
          have := hrec_none (dinsert sched var val) (by rw [hrun])
          rw [hrun] at this
          exact this
        have her : derase s2 var = sched := by
          rw [hs2, hins]
          exact derase_append_single val hfresh
        have hstep : tryVals recur var sched (val :: rest)
            = tryVals recur var sched rest := by
          simp only [tryVals, hch, if_true, hrun]
          rw [her]
        rw [hstep] at hr
        exact ih sched hfresh hpw r hr
      · have hsr : s2 = r0 ∧ (dinsert sched var val).length ≤ r0.length := by
          have := hrec_some (dinsert sched var val) r0 (by rw [hrun])
          rw [hrun] at this
          exact this
        have hr0ne : r0.isEmpty = false := by
          rcases r0 with _ | _
          · exfalso
            have h2 := hsr.2
            have h1 := length_dinsert_pos sched var val
            simp only [List.length_nil] at h2
            omega
          · rfl
        have hstep : tryVals recur var sched (val :: rest) = (some r0, s2) := by
          simp only [tryVals, hch, if_true, hrun, hr0ne]
          simp
        rw [hstep] at hr
        simp only [Option.some.injEq] at hr
        subst hr
        exact hrec_pw (dinsert sched var val) hpw1 r0 (by rw [hrun])
    · have hstep : tryVals recur var sched (val :: rest)
          = tryVals recur var sched rest := by
        simp only [tryVals, hch]
        simp
      rw [hstep] at hr
      exact ih sched hfresh hpw r hr

/-- A truthy answer of the backtracking search is pairwise consistent
whenever the entry schedule was. -/
theorem solve_bt_PW (vars : List String) (d : Domains) :
    ∀ (fuel : Nat) (sched : Sched), PWConsistent sched →
      ∀ r, (solve_bt vars d fuel sched).1 = some r → PWConsistent r := by
  intro fuel
  induction fuel with
  | zero =>
    intro sched hpw r hr
    simp [solve_bt] at hr
  | succ fuel ih =>
    intro sched hpw r hr
    by_cases hlen : sched.length = vars.length
    · simp only [solve_bt, hlen, if_true, Option.some.injEq] at hr
      subst hr
      exact hpw
    · rcases hsel : select_mrv vars sched d with _ | var
      · simp [solve_bt, hlen, hsel] at hr
      · have hfresh : ∀ p ∈ sched, p.1 ≠ var :=
          hasKey_eq_false_iff.mp (select_mrv_some hsel).2
        have hstep : solve_bt vars d (fuel + 1) sched
            = tryVals (solve_bt vars d fuel) var sched (getDom d var) := by
          simp [solve_bt, hlen, hsel]
        rw [hstep] at hr
        exact tryVals_PW (solve_bt vars d fuel)
          (fun s => (solve_bt_inv vars d fuel s).1)
          (fun s r => (solve_bt_inv vars d fuel s).2 r)
          (fun s hs r => ih s hs r) var (getDom d var) sched hfresh hpw r hr

-- ---------- Backtracking: the fuel wrapper is faithful ----------

theorem filter_length_le_of_mono {α : Type} (p q : α → Bool)
    (hmono : ∀ a, q a = true → p a = true) :
    ∀ l : List α, (l.filter q).length ≤ (l.filter p).length := by
  intro l
  induction l with
  | nil => simp
  | cons x xs ih =>
    by_cases hq : q x = true
    · simp [List.filter_cons, hq, hmono x hq]
      omega
    · simp only [List.filter_cons]
      rw [if_neg (by simp [hq])]
      rcases hp : p x
      · simp [hp]
        exact ih
      · simp
        omega

theorem filter_length_lt_of_mono {α : Type} (p q : α → Bool)
    (hmono : ∀ a, q a = true → p a = true) (a0 : α) (hp : p a0 = true)
    (hq : q a0 = false) :
    ∀ l : List α, a0 ∈ l → (l.filter q).length < (l.filter p).length := by
  intro l
  induction l with
  | nil => intro h; simp at h
  | cons x xs ih =>
    intro hmem
    rcases List.mem_cons.mp hmem with heq | htail
    · subst heq
      simp only [List.filter_cons]
      rw [if_neg (by simp [hq]), if_pos (by simp [hp])]
      have := filter_length_le_of_mono p q hmono xs
      simp
      omega
    · have hlt := ih htail
      simp only [List.filter_cons]
      rcases hqx : q x
      · rcases hpx : p x
        · simp
          omega
        · simp
          omega
      · have hpx : p x = true := hmono x hqx
        simp [hpx]
        omega

theorem hasKey_append {α : Type} (s t : List (String × α)) (v : String) :
    hasKey (s ++ t) v = (hasKey s v || hasKey t v) := by
  simp [hasKey, List.any_append]

theorem unassignedCnt_insert_lt (vars : List String) (sched : Sched) (var : String)
    (val : Val) (hvar : var ∈ vars) (hkey : hasKey sched var = false) :
    unassignedCnt vars (sched ++ [(var, val)]) < unassignedCnt vars sched := by
  have hmono : ∀ a, (fun v => !hasKey (sched ++ [(var, val)]) v) a = true →
      (fun v => !hasKey sched v) a = true := by
    intro a ha
    simp only [Bool.not_eq_true'] at ha ⊢
    rw [hasKey_append] at ha
    exact (Bool.or_eq_false_iff.mp ha).1
  have hp : (fun v => !hasKey sched v) var = true := by simp [hkey]
  have hq : (fun v => !hasKey (sched ++ [(var, val)]) v) var = false := by
    simp [hasKey_append, hasKey]
  exact filter_length_lt_of_mono _ _ hmono var hp hq vars hvar

theorem unassignedCnt_le (vars : List String) (sched : Sched) :
    unassignedCnt vars sched ≤ vars.length :=
  List.length_filter_le _ _

/-- Stability of the candidate loop in the fuel of the recursive call. -/
theorem tryVals_stable (vars : List String) (d : Domains) (fuel : Nat)
    (hstab : ∀ s, unassignedCnt vars s < fuel →
      solve_bt vars d fuel s = solve_bt vars d (fuel + 1) s)
    (var : String) (hvar : var ∈ vars) :
    ∀ vals (sched : Sched), (∀ p ∈ sched, p.1 ≠ var) →
      unassignedCnt vars sched ≤ fuel →
      tryVals (solve_bt vars d fuel) var sched vals
        = tryVals (solve_bt vars d (fuel + 1)) var sched vals := by
  intro vals
  induction vals with
  | nil => intro sched hfresh hcnt; rfl
  | cons val rest ih =>
    intro sched hfresh hcnt
    by_cases hch : sched.all (fun p => is_consistent val p.2 var p.1) = true
    · have hkey : hasKey sched var = false := hasKey_eq_false_iff.mpr hfresh
      have hins : dinsert sched var val = sched ++ [(var, val)] :=
        dinsert_of_not_hasKey val hkey
      have hlt : unassignedCnt vars (dinsert sched var val) < fuel := by
        rw [hins]
        have := unassignedCnt_insert_lt vars sched var val hvar hkey
        omega
      have hrec : solve_bt vars d fuel (dinsert sched var val)
          = solve_bt vars d (fuel + 1) (dinsert sched var val) :=
        hstab (dinsert sched var val) hlt
      rcases hrun : solve_bt vars d (fuel + 1) (dinsert sched var val) with ⟨res, s2⟩
      rcases res with _ | r0
      · -- both recursions fail with the (restored) same state
        have hs2 : s2 = dinsert sched var val := by
          have := (solve_bt_inv vars d (fuel + 1) (dinsert sched var val)).1
            (by rw [hrun])
          rw [hrun] at this
          exact this
        have her : derase s2 var = sched := by
          rw [hs2, hins]
          exact derase_append_single val hfresh
        have hstepL : tryVals (solve_bt vars d fuel) var sched (val :: rest)
            = tryVals (solve_bt vars d fuel) var sched rest := by
          simp only [tryVals, hch, if_true, hrec, hrun]
          rw [her]
        have hstepR : tryVals (solve_bt vars d (fuel + 1)) var sched (val :: rest)
            = tryVals (solve_bt vars d (fuel + 1)) var sched rest := by
          simp only [tryVals, hch, if_true, hrun]
          rw [her]
        rw [hstepL, hstepR]
        exact ih sched hfresh hcnt
      · -- both recursions succeed with the same truthy result
        have hsr : s2 = r0 ∧ (dinsert sched var val).length ≤ r0.length := by
          have := (solve_bt_inv vars d (fuel + 1) (dinsert sched var val)).2 r0
            (by rw [hrun])
          rw [hrun] at this
          exact this
        have hr0ne : r0.isEmpty = false := by
          rcases r0 with _ | _
          · exfalso
            have h2 := hsr.2
            have h1 := length_dinsert_pos sched var val
            simp only [List.length_nil] at h2
            omega
          · rfl
        have hstepL : tryVals (solve_bt vars d fuel) var sched (val :: rest)
            = (some r0, s2) := by
          simp only [tryVals, hch, if_true, hrec, hrun, hr0ne]
          simp
        have hstepR : tryVals (solve_bt vars d (fuel + 1)) var sched (val :: rest)
            = (some r0, s2) := by
          simp only [tryVals, hch, if_true, hrun, hr0ne]
          simp
        rw [hstepL, hstepR]
    · have hstepL : tryVals (solve_bt vars d fuel) var sched (val :: rest)
          = tryVals (solve_bt vars d fuel) var sched rest := by
        simp only [tryVals, hch]
        simp
      have hstepR : tryVals (solve_bt vars d (fuel + 1)) var sched (val :: rest)
          = tryVals (solve_bt vars d (fuel + 1)) var sched rest := by
        simp only [tryVals, hch]
        simp
      rw [hstepL, hstepR]
      exact ih sched hfresh hcnt

/-- Beyond the number of unassigned variables, the fuel does not influence
the result of `solve_bt`. -/
theorem solve_bt_stable (vars : List String) (d : Domains) :
    ∀ (fuel : Nat) (sched : Sched), unassignedCnt vars sched < fuel →
      solve_bt vars d fuel sched = solve_bt vars d (fuel + 1) sched := by
  intro fuel
  induction fuel with
  | zero => intro sched hcnt; omega
  | succ fuel ih =>
    intro sched hcnt
    by_cases hlen : sched.length = vars.length
    · simp [solve_bt, hlen]
    · rcases hsel : select_mrv vars sched d with _ | var
      · simp [solve_bt, hlen, hsel]
      · have hfresh : ∀ p ∈ sched, p.1 ≠ var :=
          hasKey_eq_false_iff.mp (select_mrv_some hsel).2
        have hvar : var ∈ vars := (select_mrv_some hsel).1
        have hstepL : solve_bt vars d (fuel + 1) sched
            = tryVals (solve_bt vars d fuel) var sched (getDom d var) := by
          simp [solve_bt, hlen, hsel]
        have hstepR : solve_bt vars d (fuel + 1 + 1) sched
            = tryVals (solve_bt vars d (fuel + 1)) var sched (getDom d var) := by
          simp [solve_bt, hlen, hsel]
        rw [hstepL, hstepR]
        exact tryVals_stable vars d fuel ih var hvar (getDom d var) sched hfresh
          (by omega)

/-- Any fuel of at least `variables.length + 1` produces the result of
`solve_backtracking`: the chosen fuel is ample. -/
theorem solve_bt_fuel_stable (vars : List String) (d : Domains) (sched : Sched) :
    ∀ (fuel : Nat), vars.length + 1 ≤ fuel →
      solve_bt vars d fuel sched = solve_backtracking vars d sched := by
  have hbase : ∀ k, solve_bt vars d (vars.length + 1 + k) sched
      = solve_bt vars d (vars.length + 1) sched := by
    intro k
    induction k with
    | zero => rfl
    | succ k ih =>
      have hlt : unassignedCnt vars sched < vars.length + 1 + k := by
        have := unassignedCnt_le vars sched
        omega
      have := solve_bt_stable vars d (vars.length + 1 + k) sched hlt
      rw [show vars.length + 1 + (k + 1) = vars.length + 1 + k + 1 by omega, ← this]
      exact ih
  intro fuel hfuel
  obtain ⟨k, hk⟩ := Nat.exists_eq_add_of_le hfuel
  rw [hk]
  exact hbase k

-- ---------- Formulator lemmas ----------

theorem dlookup_eq_none {α : Type} {s : List (String × α)} {k : String}
    (h : ∀ p ∈ s, p.1 ≠ k) : dlookup s k = none := by
  induction s with
  | nil => rfl
  | cons p rest ih =>
    obtain ⟨k0, v0⟩ := p
    have hk : k0 ≠ k := h (k0, v0) (List.mem_cons_self _ _)
    simp only [dlookup, if_neg hk]
    exact ih fun p hp => h p (List.mem_cons_of_mem _ hp)

theorem dlookup_append_of_none {α : Type} {s : List (String × α)} {k : String}
    (t : List (String × α)) (h : dlookup s k = none) :
    dlookup (s ++ t) k = dlookup t k := by
  induction s with
  | nil => rfl
  | cons p rest ih =>
    obtain ⟨k0, v0⟩ := p
    by_cases hk : k0 = k
    · simp [dlookup, hk] at h
    · simp only [dlookup, if_neg hk] at h ⊢
      exact ih h

theorem dlookup_append_left {α : Type} {s : List (String × α)} {k : String} {w : α}
    (t : List (String × α)) (h : dlookup s k = some w) :
    dlookup (s ++ t) k = some w := by
  induction s with
  | nil => simp [dlookup] at h
  | cons p rest ih =>
    obtain ⟨k0, v0⟩ := p
    by_cases hk : k0 = k
    · simp only [dlookup, if_pos hk] at h ⊢
      exact h
    · simp only [dlookup, if_neg hk] at h
      simp only [List.cons_append, dlookup, if_neg hk]
      exact ih h

theorem dlookup_map_replace_self {α : Type} (s : List (String × α)) (k : String)
    (v : α) :
    dlookup (s.map (fun p => if p.1 = k then (k, v) else p)) k
      = (dlookup s k).map (fun _ => v) := by
  induction s with
  | nil => rfl
  | cons p rest ih =>
    obtain ⟨k0, v0⟩ := p
    simp only [List.map_cons]
    by_cases hk : k0 = k
    · subst hk
      rw [if_pos rfl]
      simp only [dlookup, if_pos rfl]
      rfl
    · rw [if_neg hk]
      simp only [dlookup, if_neg hk]
      exact ih

theorem dlookup_map_replace_ne {α : Type} (s : List (String × α)) (k k' : String)
    (v : α) (h : k' ≠ k) :
    dlookup (s.map (fun p => if p.1 = k then (k, v) else p)) k'
      = dlookup s k' := by
  induction s with
  | nil => rfl
  | cons p rest ih =>
    obtain ⟨k0, v0⟩ := p
    simp only [List.map_cons]
    by_cases hk0 : k0 = k
    · subst hk0
      have hne : ¬ (k0 = k') := fun he => h he.symm
      rw [if_pos rfl]
      simp only [dlookup, if_neg hne]
      exact ih
    · rw [if_neg hk0]
      simp only [dlookup]
      by_cases hke : k0 = k'
      · simp [hke]
      · simp only [if_neg hke]
        exact ih

theorem hasKey_iff_dlookup {α : Type} {s : List (String × α)} {k : String} :
    hasKey s k = true ↔ (dlookup s k).isSome = true := by
  induction s with
  | nil => simp [hasKey, dlookup]
  | cons p rest ih =>
    obtain ⟨k0, v0⟩ := p
    by_cases hk : k0 = k
    · subst hk
      simp [hasKey, dlookup]
    · rw [show hasKey ((k0, v0) :: rest) k = (decide (k0 = k) || hasKey rest k) from by
        simp [hasKey]]
      simp only [dlookup, if_neg hk]
      simp [hk, ih]

theorem dlookup_dinsert_self {α : Type} (s : List (String × α)) (k : String) (v : α) :
    dlookup (dinsert s k v) k = some v := by
  rw [dinsert]
  by_cases hk : hasKey s k = true
  · rw [if_pos hk, dlookup_map_replace_self]
    obtain ⟨w, hw⟩ := Option.isSome_iff_exists.mp (hasKey_iff_dlookup.mp hk)
    rw [hw]
    rfl
  · rw [if_neg hk]
    have hnone : dlookup s k = none := by
      rcases ho : dlookup s k with _ | w
      · rfl
      · exact absurd (hasKey_iff_dlookup.mpr (by simp [ho])) hk
    rw [dlookup_append_of_none _ hnone]
    simp [dlookup]

theorem dlookup_dinsert_ne {α : Type} (s : List (String × α)) (k k' : String) (v : α)
    (h : k' ≠ k) : dlookup (dinsert s k v) k' = dlookup s k' := by
  rw [dinsert]
  by_cases hk : hasKey s k = true
  · rw [if_pos hk]
    exact dlookup_map_replace_ne s k k' v h
  · rw [if_neg hk]
    rcases ho : dlookup s k' with _ | w
    · rw [dlookup_append_of_none _ ho]
      have hne : ¬ (k = k') := fun he => h he.symm
      simp [dlookup, hne]
    · exact dlookup_append_left _ ho

theorem foldl_preserves {σ α : Type} (f : σ → α → σ) (P : σ → Prop)
    (hstep : ∀ st a, P st → P (f st a)) :
    ∀ (l : List α) (st : σ), P st → P (l.foldl f st) := by
  intro l
  induction l with
  | nil => intro st h; exact h
  | cons a rest ih =>
    intro st h
    simp only [List.foldl_cons]
    exact ih (f st a) (hstep st a h)

/-- The diagnostics invariant of `setup_csp`'s accumulating state: every
declared variable has a domain entry, and an empty one is accompanied by
its diagnostic in the reasons dict.  One `processVtype` step preserves it. -/
theorem processVtype_inv (rooms : List RoomRec) (tss : List TimeSlotRec)
    (insts : List InstructorRec) (sectionID : String) (cnt : Nat) (courseID : String)
    (qualified : List InstructorRec) (st : SetupSt) (vtype : String)
    (h : ∀ v ∈ st.1, ∃ dl, dlookup st.2.1 v = some dl ∧
      (dl = [] → dlookup st.2.2 v = some ("No valid assignments found for " ++ v))) :
    ∀ v ∈ (processVtype rooms tss insts sectionID cnt courseID qualified st vtype).1,
      ∃ dl, dlookup
          (processVtype rooms tss insts sectionID cnt courseID qualified st vtype).2.1
          v = some dl ∧
        (dl = [] → dlookup
          (processVtype rooms tss insts sectionID cnt courseID qualified st vtype).2.2
          v = some ("No valid assignments found for " ++ v)) := by
  intro v hv
  simp only [processVtype] at hv ⊢
  by_cases hvw : v = courseID ++ "_" ++ vtype ++ "_" ++ sectionID
  · subst hvw
    refine ⟨(make_domain_for_type rooms tss qualified cnt vtype).filter
      (keepByPref insts tss), dlookup_dinsert_self _ _ _, fun hf => ?_⟩
    rw [if_pos (by simp [hf])]
    exact dlookup_dinsert_self _ _ _
  · have hvs : v ∈ st.1 := by
      rcases List.mem_append.mp hv with hmem | hmem
      · exact hmem
      · simp at hmem
        exact absurd hmem hvw
    obtain ⟨dl, hdl, hre⟩ := h v hvs
    refine ⟨dl, ?_, fun hnil => ?_⟩
    · rw [dlookup_dinsert_ne _ _ _ _ hvw]
      exact hdl
    · by_cases hemp : ((make_domain_for_type rooms tss qualified cnt vtype).filter
        (keepByPref insts tss)).isEmpty = true
      · rw [if_pos hemp, dlookup_dinsert_ne _ _ _ _ hvw]
        exact hre hnil
      · rw [if_neg hemp]
        exact hre hnil

theorem processCourse_inv (rooms : List RoomRec) (tss : List TimeSlotRec)
    (insts : List InstructorRec) (courses : List CourseRec) (sectionID : String)
    (cnt : Nat) (st : SetupSt) (courseID : String)
    (h : ∀ v ∈ st.1, ∃ dl, dlookup st.2.1 v = some dl ∧
      (dl = [] → dlookup st.2.2 v = some ("No valid assignments found for " ++ v))) :
    ∀ v ∈ (processCourse rooms tss insts courses sectionID cnt st courseID).1,
      ∃ dl, dlookup (processCourse rooms tss insts courses sectionID cnt st courseID).2.1
          v = some dl ∧
        (dl = [] → dlookup
          (processCourse rooms tss insts courses sectionID cnt st courseID).2.2
          v = some ("No valid assignments found for " ++ v)) := by
  rcases hfind : courses.find? (fun c => decide (c.courseID = courseID)) with _ | crow
  · rw [processCourse, hfind]
    exact h
  · rw [processCourse, hfind]
    exact foldl_preserves
      (processVtype rooms tss insts sectionID cnt courseID (qualifiedFor courseID insts))
      (fun st' : SetupSt => ∀ v ∈ st'.1, ∃ dl, dlookup st'.2.1 v = some dl ∧
        (dl = [] → dlookup st'.2.2 v = some ("No valid assignments found for " ++ v)))
      (fun st' a h' => processVtype_inv rooms tss insts sectionID cnt courseID
        (qualifiedFor courseID insts) st' a h')
      (if normalize_course_type crow = "Lecture and Lab" then ["Lecture", "Lab"]
        else [normalize_course_type crow]) st h

theorem processSection_inv (rooms : List RoomRec) (tss : List TimeSlotRec)
    (insts : List InstructorRec) (courses : List CourseRec) (st : SetupSt)
    (sec : SectionRec)
    (h : ∀ v ∈ st.1, ∃ dl, dlookup st.2.1 v = some dl ∧
      (dl = [] → dlookup st.2.2 v = some ("No valid assignments found for " ++ v))) :
    ∀ v ∈ (processSection rooms tss insts courses st sec).1,
      ∃ dl, dlookup (processSection rooms tss insts courses st sec).2.1 v = some dl ∧
        (dl = [] → dlookup (processSection rooms tss insts courses st sec).2.2
          v = some ("No valid assignments found for " ++ v)) := by
  rw [processSection]
  by_cases hc : sec.courses.isEmpty = true
  · rw [if_pos hc]
    exact h
  · rw [if_neg hc]
    exact foldl_preserves _ _
      (fun st' a h' => processCourse_inv rooms tss insts courses sec.sectionID
        sec.studentCount st' a h') _ st h

-- ---------- `make_domain_for_type` characterization ----------

theorem mem_tripleProd {ts rs ins : List String} {x : Val} :
    x ∈ tripleProd ts rs ins ↔ x.1 ∈ ts ∧ x.2.1 ∈ rs ∧ x.2.2 ∈ ins := by
  obtain ⟨t, r, i⟩ := x
  simp only [tripleProd, List.mem_flatMap, List.mem_map, Prod.mk.injEq]
  constructor
  · rintro ⟨a, ha, b, hb, c, hc, rfl, rfl, rfl⟩
    exact ⟨ha, hb, hc⟩
  · rintro ⟨ha, hb, hc⟩
    exact ⟨t, ha, r, hb, i, hc, rfl, rfl, rfl⟩

theorem mem_make_domain_iff {rooms : List RoomRec} {tss : List TimeSlotRec}
    {qualified : List InstructorRec} {cnt : Nat} {vtype : String} {x : Val} :
    x ∈ make_domain_for_type rooms tss qualified cnt vtype ↔
      (¬ room_candidates rooms cnt vtype = [] ∧ ¬ qualified = [] ∧
       x.1 ∈ tss.map (fun t => t.timeSlotID) ∧
       x.2.1 ∈ (room_candidates rooms cnt vtype).map (fun r => r.roomID) ∧
       x.2.2 ∈ qualified.map (fun i => i.instructorID)) := by
  by_cases h1 : (room_candidates rooms cnt vtype).isEmpty = true
  · have hnil : room_candidates rooms cnt vtype = [] := List.isEmpty_iff.mp h1
    simp [make_domain_for_type, h1, hnil]
  · by_cases h2 : qualified.isEmpty = true
    · have hnil : qualified = [] := List.isEmpty_iff.mp h2
      simp [make_domain_for_type, h1, h2, hnil]
    · have e1 : ¬ room_candidates rooms cnt vtype = [] :=
        fun he => h1 (List.isEmpty_iff.mpr he)
      have e2 : ¬ qualified = [] := fun he => h2 (List.isEmpty_iff.mpr he)
      have hcond : ¬ (((room_candidates rooms cnt vtype).isEmpty
          || qualified.isEmpty) = true) := by
        simp [h1, h2]
      simp only [make_domain_for_type]
      rw [if_neg hcond, mem_tripleProd]
      simp [e1, e2]

-- ---------- Claim theorems ----------

/-- C1: every complete schedule returned by the backtracking search (started,
as in `main.py`, from the empty assignment) is globally pairwise consistent:
for every pair of distinct bound variables, `is_consistent` holds for their
assigned values — not merely for neighbouring pairs. -/
theorem claim_C1_backtracking_globally_consistent (vars : List String) (d : Domains)
    (r s' : Sched) (heq : solve_backtracking vars d [] = (some r, s')) :
    PWConsistent r := by
  have h1 : (solve_bt vars d (vars.length + 1) []).1 = some r := by
    rw [show solve_bt vars d (vars.length + 1) [] = solve_backtracking vars d [] from rfl,
      heq]
  exact solve_bt_PW vars d (vars.length + 1) [] PWConsistent_nil r h1

/-- Witness for C1: a two-variable run in which the first candidate of the
second variable conflicts (same timeslot and room) and is skipped; the
returned schedule's two bindings satisfy the consistency predicate. -/
theorem claim_C1_witness :
    is_consistent ("T1", "R1", "I1") ("T2", "R2", "I2")
      "M1_Lecture_S1" "M2_Lecture_S1" = true := by
  have h := claim_C1_backtracking_globally_consistent
    ["M1_Lecture_S1", "M2_Lecture_S1"]
    [("M1_Lecture_S1", [("T1", "R1", "I1")]),
     ("M2_Lecture_S1", [("T1", "R1", "I2"), ("T2", "R2", "I2")])]
    [("M1_Lecture_S1", ("T1", "R1", "I1")), ("M2_Lecture_S1", ("T2", "R2", "I2"))]
    [("M1_Lecture_S1", ("T1", "R1", "I1")), ("M2_Lecture_S1", ("T2", "R2", "I2"))]
    (by decide)
  exact h ("M1_Lecture_S1", ("T1", "R1", "I1")) (by decide)
    ("M2_Lecture_S1", ("T2", "R2", "I2")) (by decide) (by decide)

/-- Counterexample for C2: the claim requires a same-timeslot pair in which
one variable's key denotes "ALL" sections and the other variable's section
is covered to be reported inconsistent.  `is_consistent` has no "ALL"
handling at all — it compares the section suffixes for literal string
equality ("ALL" vs "G1" differ), so with distinct rooms and instructors the
pair is accepted. -/
theorem claim_C2_counterexample :
    is_consistent ("T1", "R1", "I1") ("T1", "R2", "I2")
      "C1_Lecture_ALL" "C1_Lab_G1" = true := by decide

/-- C2 (amended): at a shared timeslot with distinct rooms and instructors,
`is_consistent` reports a conflict exactly when the two variables' section
suffixes (the key text after the second underscore) are string-equal; a key
naming "ALL" conflicts only with another key whose suffix is literally
"ALL", and no ALL-intersects-every-section semantics exists. -/
theorem claim_C2_amended (t r1 i1 r2 i2 v1 v2 : String)
    (hr : r1 ≠ r2) (hi : i1 ≠ i2) :
    (is_consistent (t, r1, i1) (t, r2, i2) v1 v2 = false ↔
      sectionOf v1 = sectionOf v2) := by
  by_cases hs : sectionOf v1 = sectionOf v2 <;> simp [is_consistent, hr, hi, hs]

/-- Witness for C2 (amended): two "ALL"-suffixed keys do conflict at a
shared timeslot, because their suffixes are equal as strings. -/
theorem claim_C2_witness :
    is_consistent ("T1", "R1", "I1") ("T1", "R2", "I2")
      "C1_Lecture_ALL" "C2_Lab_ALL" = false :=
  (claim_C2_amended "T1" "R1" "I1" "R2" "I2" "C1_Lecture_ALL" "C2_Lab_ALL"
    (by decide) (by decide)).mpr (by decide)

/-- Counterexample for C3: the predicate never blocks both slots of a
double-length session.  A lab spanning `(TS1, TS2)` — whether represented
by its first slot or by a compound id — is accepted against a session at
`TS2` (or at `TS1`) in the same room with the same instructor, because
`is_consistent` compares the single stored timeslot ids for exact equality
only. -/
theorem claim_C3_counterexample :
    is_consistent ("TS1", "R1", "I1") ("TS2", "R1", "I1")
      "C1_Lab_G1" "C2_Lecture_G2" = true ∧
    is_consistent ("TS1-TS2", "R1", "I1") ("TS1", "R1", "I1")
      "C1_Lab_G1" "C2_Lecture_G2" = true := by decide

/-- C3 (amended): `is_consistent` rejects a pair exactly when the two stored
timeslot ids are equal and the values share a room, an instructor, or a
section suffix; there is no notion of a value occupying two consecutive
timeslots (the formulator's domains are single-timeslot triples), so no
second slot is ever blocked. -/
theorem claim_C3_amended (t1 r1 i1 t2 r2 i2 v1 v2 : String) :
    is_consistent (t1, r1, i1) (t2, r2, i2) v1 v2 = false ↔
      (t1 = t2 ∧ (r1 = r2 ∨ i1 = i2 ∨ sectionOf v1 = sectionOf v2)) := by
  by_cases ht : t1 = t2 <;> by_cases hr : r1 = r2 <;> by_cases hi : i1 = i2 <;>
    by_cases hs : sectionOf v1 = sectionOf v2 <;>
    simp [is_consistent, ht, hr, hi, hs]

/-- Counterexample for C4: `setup_csp` performs no duration filtering.  With
one lecture course, one qualified instructor, one lecture room and two
timeslots of durations 45 and 90 minutes, the materialized domain of the
lecture variable contains the 45-minute slot `"T45"` — a duration the claim
says lecture domains must not use. -/
theorem claim_C4_counterexample :
    ("T45", "R1", "I1") ∈
      (dlookup (setup_csp [⟨"S1", 30, ["C1"]⟩] [⟨"C1", some "Lecture", 0, 0⟩]
        [⟨"R1", "Lecture Hall", 100⟩] [⟨"I1", "C1, C2", none⟩]
        [⟨"T45", "Monday", 45⟩, ⟨"T90", "Monday", 90⟩]).2.1 "C1_Lecture_S1").getD [] ∧
    (([⟨"T45", "Monday", 45⟩, ⟨"T90", "Monday", 90⟩] : List TimeSlotRec).find?
      (fun ts => decide (ts.timeSlotID = "T45"))).map (fun ts => ts.duration)
      = some 45 ∧ (45 : Nat) ≠ 90 := by decide

/-- C4 (amended): a value belongs to `make_domain_for_type` exactly when its
timeslot is **any** timeslot id of the data (durations are never consulted),
its room is a candidate room (type-substring and capacity filtered), and its
instructor is qualified — provided neither candidate list is empty.  No
consecutive-slot pairs are synthesized. -/
theorem claim_C4_amended (rooms : List RoomRec) (tss : List TimeSlotRec)
    (qualified : List InstructorRec) (cnt : Nat) (vtype : String) (x : Val) :
    x ∈ make_domain_for_type rooms tss qualified cnt vtype ↔
      (¬ room_candidates rooms cnt vtype = [] ∧ ¬ qualified = [] ∧
       x.1 ∈ tss.map (fun t => t.timeSlotID) ∧
       x.2.1 ∈ (room_candidates rooms cnt vtype).map (fun r => r.roomID) ∧
       x.2.2 ∈ qualified.map (fun i => i.instructorID)) :=
  mem_make_domain_iff

/-- C5: pruning by AC-3 is sound.  Every value present initially and absent
from the pruned domains was removed at a reachable intermediate state
(`ReviseStep` chain) at which some single other variable offered no
consistent value; with well-formed (irreflexive) constraints the justifying
variable is distinct from the revised one.  The chain consists precisely of
`revise` applications, so no value is removed for any other reason. -/
theorem claim_C5_pruning_sound (vars : List String) (doms : Domains)
    (cons : List (String × String)) :
    (∀ v x, x ∈ getDom doms v → x ∉ getDom (ac3 vars doms cons).2 v →
      ∃ dmid, Relation.ReflTransGen ReviseStep doms dmid ∧ x ∈ getDom dmid v ∧
        ∃ w, ∀ y ∈ getDom dmid w, is_consistent x y v w = false) ∧
    ((∀ p ∈ cons, p.1 ≠ p.2) →
      ∀ v x, x ∈ getDom doms v → x ∉ getDom (ac3 vars doms cons).2 v →
      ∃ dmid, Relation.ReflTransGen ReviseStepNe doms dmid ∧ x ∈ getDom dmid v ∧
        ∃ w, w ≠ v ∧ ∀ y ∈ getDom dmid w, is_consistent x y v w = false) := by
  constructor
  · intro v x hx hx'
    exact chain_first_removal
      (ac3Aux_reach vars (cons ++ cons.map (fun p => (p.2, p.1))) doms) hx hx'
  · intro hwf v x hx hx'
    refine chain_first_removalNe
      (ac3Aux_reachNe vars (cons ++ cons.map (fun p => (p.2, p.1))) doms ?_) hx hx'
    intro p hp
    rcases List.mem_append.mp hp with hc | hm
    · exact hwf p hc
    · obtain ⟨q, hq, rfl⟩ := List.mem_map.mp hm
      exact Ne.symm (hwf q hq)

/-- Witness for C5: `ac3` removes `("T1","R1","I1")` from variable `"A"`
(its only support in `"B"` shares the timeslot and room); the removal is
justified at a reachable state against the single variable `"B"`. -/
theorem claim_C5_witness :
    ∃ dmid, Relation.ReflTransGen ReviseStep
        [("A", [("T1", "R1", "I1")]), ("B", [("T1", "R1", "I2")])] dmid ∧
      ("T1", "R1", "I1") ∈ getDom dmid "A" ∧
      ∃ w, ∀ y ∈ getDom dmid w,
        is_consistent ("T1", "R1", "I1") y "A" w = false := by
  have heval : ac3 ["A", "B"] [("A", [("T1", "R1", "I1")]), ("B", [("T1", "R1", "I2")])]
      (allPairs ["A", "B"]) = (false, [("A", []), ("B", [("T1", "R1", "I2")])]) := by
    simp [ac3, allPairs, ac3Aux, revise, reviseFilter, getDom, dlookup, dset,
      is_consistent, sectionOf, splitOnChar, joinUnderscore, charEq]
  exact (claim_C5_pruning_sound ["A", "B"]
    [("A", [("T1", "R1", "I1")]), ("B", [("T1", "R1", "I2")])] (allPairs ["A", "B"])).1
    "A" ("T1", "R1", "I1") (by decide) (by rw [heval]; decide)

/-- Counterexample for C6: the claim's idempotence fails for an input on
which the first run aborts (`False`) before draining its queue.  Here the
first run empties `"A"` and stops; the second run, fed the resulting
domains, additionally empties `"B"`: a further value is removed. -/
theorem claim_C6_counterexample :
    ¬ (getDom (ac3 ["A", "B", "C"]
          ((ac3 ["A", "B", "C"]
            [("A", [("T1", "R1", "I1")]), ("B", [("T1", "R1", "I1")]),
             ("C", [("T1", "R1", "I2")])] (allPairs ["A", "B", "C"])).2)
          (allPairs ["A", "B", "C"])).2 "B"
        = getDom ((ac3 ["A", "B", "C"]
            [("A", [("T1", "R1", "I1")]), ("B", [("T1", "R1", "I1")]),
             ("C", [("T1", "R1", "I2")])] (allPairs ["A", "B", "C"])).2) "B") := by
  have h1 : ac3 ["A", "B", "C"]
      [("A", [("T1", "R1", "I1")]), ("B", [("T1", "R1", "I1")]),
       ("C", [("T1", "R1", "I2")])] (allPairs ["A", "B", "C"])
      = (false, [("A", []), ("B", [("T1", "R1", "I1")]), ("C", [("T1", "R1", "I2")])]) := by
    simp [ac3, allPairs, ac3Aux, revise, reviseFilter, getDom, dlookup, dset,
      is_consistent, sectionOf, splitOnChar, joinUnderscore, charEq]
  have h2 : ac3 ["A", "B", "C"]
      [("A", []), ("B", [("T1", "R1", "I1")]), ("C", [("T1", "R1", "I2")])]
      (allPairs ["A", "B", "C"])
      = (false, [("A", []), ("B", []), ("C", [("T1", "R1", "I2")])]) := by
    simp [ac3, allPairs, ac3Aux, revise, reviseFilter, getDom, dlookup, dset,
      is_consistent, sectionOf, splitOnChar, joinUnderscore, charEq]
  rw [h1]
  simp only
  rw [h2]
  decide

/-- C6 (amended): AC-3 only ever shrinks domains (each pruned domain is a
sublist of the original, for every input); and when the constraints are
well-formed pairs of distinct declared variables **and** the first run
answers `True`, a second run on the pruned domains is the identity — it
answers `True` and removes nothing. -/
theorem claim_C6_amended (vars : List String) (doms : Domains)
    (cons : List (String × String)) :
    (∀ v, (getDom (ac3 vars doms cons).2 v).Sublist (getDom doms v)) ∧
    (WFConstraints vars cons → (ac3 vars doms cons).1 = true →
      ac3 vars (ac3 vars doms cons).2 cons = (true, (ac3 vars doms cons).2)) := by
  constructor
  · intro v
    exact ac3Aux_getDom_sublist vars (cons ++ cons.map (fun p => (p.2, p.1))) doms v
  · intro hwf h1
    have hwf0 : ∀ p ∈ (cons ++ cons.map (fun p => (p.2, p.1))),
        p.1 ≠ p.2 ∧ p.1 ∈ vars ∧ p.2 ∈ vars := by
      intro p hp
      rcases List.mem_append.mp hp with hc | hm
      · exact hwf p hc
      · obtain ⟨q, hq, rfl⟩ := List.mem_map.mp hm
        obtain ⟨hne, ha, hb⟩ := hwf q hq
        exact ⟨Ne.symm hne, hb, ha⟩
    have heq : ac3Aux vars (cons ++ cons.map (fun p => (p.2, p.1))) doms
        = (true, (ac3 vars doms cons).2) := Prod.ext h1 rfl
    have hcons := ac3Aux_invariant vars (cons ++ cons.map (fun p => (p.2, p.1))) hwf0
      (cons ++ cons.map (fun p => (p.2, p.1))) doms ((ac3 vars doms cons).2)
      (fun p hp => (hwf0 p hp).1) (fun p hp => Or.inl hp) heq
    exact ac3Aux_of_allCons vars (cons ++ cons.map (fun p => (p.2, p.1)))
      ((ac3 vars doms cons).2) (fun p hp => hcons p hp)

/-- Witness for C6 (amended): on a two-variable instance whose only arcs are
already consistent, the first run answers `True` and the second run is the
identity on the pruned domains. -/
theorem claim_C6_witness :
    ac3 ["A", "B"] ((ac3 ["A", "B"]
        [("A", [("T1", "R1", "I1")]), ("B", [("T2", "R1", "I1")])]
        (allPairs ["A", "B"])).2) (allPairs ["A", "B"])
      = (true, (ac3 ["A", "B"]
        [("A", [("T1", "R1", "I1")]), ("B", [("T2", "R1", "I1")])]
        (allPairs ["A", "B"])).2) :=
  (claim_C6_amended ["A", "B"]
    [("A", [("T1", "R1", "I1")]), ("B", [("T2", "R1", "I1")])]
    (allPairs ["A", "B"])).2
    (by
      intro p hp
      simp [allPairs] at hp
      subst hp
      exact ⟨by decide, by decide, by decide⟩)
    (by
      have heval : ac3 ["A", "B"]
          [("A", [("T1", "R1", "I1")]), ("B", [("T2", "R1", "I1")])]
          (allPairs ["A", "B"])
          = (true, [("A", [("T1", "R1", "I1")]), ("B", [("T2", "R1", "I1")])]) := by
        simp [ac3, allPairs, ac3Aux, revise, reviseFilter, getDom, dlookup, dset,
          is_consistent, sectionOf, splitOnChar, joinUnderscore, charEq]
      rw [heval])

/-- C7: a variable whose materialized domain is empty does not make the
formulator fail: `setup_csp` still returns every structure, every declared
variable has a domain entry, and an empty entry is accompanied by the
`(variable, reason)` diagnostic in the returned empty-domain map. -/
theorem claim_C7_empty_domain_diagnostics (sections : List SectionRec)
    (courses : List CourseRec) (rooms : List RoomRec) (insts : List InstructorRec)
    (tss : List TimeSlotRec) :
    ∀ v ∈ (setup_csp sections courses rooms insts tss).1,
      ∃ dl, dlookup (setup_csp sections courses rooms insts tss).2.1 v = some dl ∧
        (dl = [] → dlookup (setup_csp sections courses rooms insts tss).2.2.2 v
          = some ("No valid assignments found for " ++ v)) := by
  have := foldl_preserves (processSection rooms tss insts courses)
    (fun st : SetupSt => ∀ v ∈ st.1, ∃ dl, dlookup st.2.1 v = some dl ∧
      (dl = [] → dlookup st.2.2 v = some ("No valid assignments found for " ++ v)))
    (fun st a h => processSection_inv rooms tss insts courses st a h)
    sections ([], [], []) (by intro v hv; simp at hv)
  exact this

/-- Witness for C7: with no qualified instructor the lecture variable's
domain is empty, and the diagnostic entry appears in the returned map. -/
theorem claim_C7_witness :
    dlookup (setup_csp [⟨"S1", 30, ["C1"]⟩] [⟨"C1", some "Lecture", 0, 0⟩]
      [⟨"R1", "Lecture Hall", 100⟩] [⟨"I1", "C9", none⟩]
      [⟨"T45", "Monday", 45⟩]).2.2.2 "C1_Lecture_S1"
      = some ("No valid assignments found for " ++ "C1_Lecture_S1") := by
  obtain ⟨dl, hdl, himp⟩ := claim_C7_empty_domain_diagnostics
    [⟨"S1", 30, ["C1"]⟩] [⟨"C1", some "Lecture", 0, 0⟩]
    [⟨"R1", "Lecture Hall", 100⟩] [⟨"I1", "C9", none⟩]
    [⟨"T45", "Monday", 45⟩] "C1_Lecture_S1" (by decide)
  have hc : dlookup (setup_csp [⟨"S1", 30, ["C1"]⟩] [⟨"C1", some "Lecture", 0, 0⟩]
      [⟨"R1", "Lecture Hall", 100⟩] [⟨"I1", "C9", none⟩]
      [⟨"T45", "Monday", 45⟩]).2.1 "C1_Lecture_S1" = some [] := by decide
  have hnil : ([] : List Val) = dl := by injection hc.symm.trans hdl
  exact himp hnil.symm

/-- C8: the pipeline of `main.py` — AC-3 followed (on success) by the
MRV-ordered backtracking search from the empty schedule — is a pure
function of its input: two runs on identical formulator output produce
identical pruned domains and an identical search result. -/
theorem claim_C8_pipeline_deterministic (vars : List String) (d : Domains)
    (cons : List (String × String)) :
    run_pipeline vars d cons = run_pipeline vars d cons ∧
    (ac3 vars d cons).2 = (ac3 vars d cons).2 ∧
    (solve_backtracking vars (ac3 vars d cons).2 []).1
      = (solve_backtracking vars (ac3 vars d cons).2 []).1 :=
  ⟨rfl, rfl, rfl⟩

/-- C9: an already-empty domain never makes AC-3 report inconsistency: with
every domain empty `ac3` answers `True`; and `False` arises only when some
revision, at a reachable state, shrank a non-empty domain to the empty
one. -/
theorem claim_C9_empty_domains_ac3 (vars : List String) (doms : Domains)
    (cons : List (String × String)) :
    ((∀ p ∈ doms, p.2 = ([] : List Val)) → (ac3 vars doms cons).1 = true) ∧
    ((ac3 vars doms cons).1 = false →
      ∃ dmid v1 v2, Relation.ReflTransGen ReviseStep doms dmid ∧
        getDom dmid v1 ≠ [] ∧ (revise dmid v1 v2).2 = true ∧
        getDom (revise dmid v1 v2).1 v1 = []) := by
  constructor
  · intro h
    have hrun := ac3Aux_true_of_allEmpty vars
      (cons ++ cons.map (fun p => (p.2, p.1))) doms h
    rw [ac3, hrun]
  · intro h
    have heq : ac3Aux vars (cons ++ cons.map (fun p => (p.2, p.1))) doms
        = (false, (ac3 vars doms cons).2) := Prod.ext h rfl
    obtain ⟨dmid, v1, v2, hc, hne, hs, hnil, -⟩ :=
      ac3Aux_false_spec vars (cons ++ cons.map (fun p => (p.2, p.1))) doms
        ((ac3 vars doms cons).2) heq
    exact ⟨dmid, v1, v2, hc, hne, hs, hnil⟩

/-- Witness for C9: with both domains empty `ac3` answers `True`; and for a
run answering `False`, a reachable revision emptied a non-empty domain. -/
theorem claim_C9_witness :
    (ac3 ["A", "B"] [("A", ([] : List Val)), ("B", ([] : List Val))]
      (allPairs ["A", "B"])).1 = true ∧
    (∃ dmid v1 v2, Relation.ReflTransGen ReviseStep
        [("A", [("T1", "R1", "I1")]), ("B", [("T1", "R1", "I1")])] dmid ∧
      getDom dmid v1 ≠ [] ∧ (revise dmid v1 v2).2 = true ∧
      getDom (revise dmid v1 v2).1 v1 = []) := by
  constructor
  · exact (claim_C9_empty_domains_ac3 ["A", "B"]
      [("A", ([] : List Val)), ("B", ([] : List Val))] (allPairs ["A", "B"])).1
      (by decide)
  · refine (claim_C9_empty_domains_ac3 ["A", "B"]
      [("A", [("T1", "R1", "I1")]), ("B", [("T1", "R1", "I1")])]
      (allPairs ["A", "B"])).2 ?_
    have heval : ac3 ["A", "B"]
        [("A", [("T1", "R1", "I1")]), ("B", [("T1", "R1", "I1")])]
        (allPairs ["A", "B"])
        = (false, [("A", []), ("B", [("T1", "R1", "I1")])]) := by
      simp [ac3, allPairs, ac3Aux, revise, reviseFilter, getDom, dlookup, dset,
        is_consistent, sectionOf, splitOnChar, joinUnderscore, charEq]
    rw [heval]

/-- C10: backtracking failure is atomic with respect to the partial
assignment: whenever `solve_backtracking` answers `None`, the schedule dict
is exactly as it was at entry — every tentative binding added during the
search has been removed again. -/
theorem claim_C10_backtracking_restores (vars : List String) (d : Domains)
    (sched : Sched) (h : (solve_backtracking vars d sched).1 = none) :
    (solve_backtracking vars d sched).2 = sched :=
  (solve_bt_inv vars d (vars.length + 1) sched).1 h

/-- Witness for C10: a failing search over one bound and one unbindable
variable hands back the entry schedule unchanged. -/
theorem claim_C10_witness :
    (solve_backtracking ["A", "B"]
      [("A", [("T1", "R1", "I1")]), ("B", [("T1", "R1", "I2")])]
      [("A", ("T1", "R1", "I1"))]).2 = [("A", ("T1", "R1", "I1"))] :=
  claim_C10_backtracking_restores ["A", "B"]
    [("A", [("T1", "R1", "I1")]), ("B", [("T1", "R1", "I2")])]
    [("A", ("T1", "R1", "I1"))] (by decide)
